import Mathlib

/-!
Verification of `nikola/winutils.py`: the Windows git-symlink placeholder
repair utility (`is_file_into_dir` and `fix_all_git_symlinked`).

Paths and file contents are modelled as `List Char` (the shape of Python
`str` for this purpose).  The relevant parts of `ntpath` (`os.path` on
Windows) are embedded: `splitdrive`, `normpath`, `relpath`, `join` and
`dirname`, restricted to drive-letter paths (UNC prefixes are out of scope
for the repository's use).  The filesystem is an explicit state: an
association list of files (path, content) plus a list of directories, both
keyed by normalized absolute paths, together with a set of destination
paths whose copy step raises (modelling per-file copy errors such as
permission denied).  Every filesystem access performed by the code is
recorded in an operation trace so that read/write containment properties
can be stated.
-/

namespace Winutils

/-- Python strings, modelled as lists of characters. -/
abbrev Str : Type := List Char

/-- Embed a Lean string literal as a `Str`. -/
def str (s : String) : Str := s.data

/-- Windows path separators: both the backslash and the forward slash. -/
def isSep (c : Char) : Bool := c = '\\' || c = '/'

/-- The character map of `s.replace('/', '\\')`. -/
def tbc (c : Char) : Char := if c = '/' then '\\' else c

/-- `s.replace('/', '\\')`. -/
def toBackslash (s : Str) : Str := s.map tbc

theorem tbc_eq_self (c : Char) (h : ¬ (c = '/')) : tbc c = c := if_neg h

theorem tbc_bs : tbc '\\' = '\\' := rfl

theorem tbc_colon : tbc ':' = ':' := rfl

/-- `ntpath.normcase` lowering (case-insensitive comparison of components). -/
def lowerStr (s : Str) : Str := s.map Char.toLower

/-- Split a string at every character satisfying `p`, keeping empty chunks
(the semantics of Python `str.split(sep)` with an explicit separator). -/
def splitP (p : Char → Bool) (s : Str) : List Str :=
  s.foldr
    (fun c acc =>
      if p c then [] :: acc
      else
        match acc with
        | g :: gs => (c :: g) :: gs
        | [] => [[c]])
    [[]]

/-- Split a string on path separators; chunks between separators, empties kept. -/
def splitSeps (s : Str) : List Str :=
  splitP isSep s

/-- Join components with a single backslash (`sep.join(comps)`). -/
def joinBS : List Str → Str
  | [] => []
  | [c] => c
  | c :: cs => c ++ '\\' :: joinBS cs

/-- `ntpath.splitdrive`, restricted to drive-letter paths (no UNC): a
two-character drive is split off exactly when the second character is a
colon. -/
def splitDrive (p : Str) : Str × Str :=
  match p with
  | a :: b :: rest => if b = ':' then ([a, b], rest) else ([], p)
  | _ => ([], p)

/-- One step of `ntpath.normpath`'s component normalization. -/
def normStep (rooted : Bool) (acc : List Str) (c : Str) : List Str :=
  if c = [] ∨ c = ['.'] then acc
  else if c = ['.', '.'] then
    if acc = [] then (if rooted then [] else [c])
    else if acc.getLastD [] = ['.', '.'] then acc ++ [c] else acc.dropLast
  else acc ++ [c]

/-- `ntpath.normpath`'s component pass: drop `''`/`'.'`, resolve `'..'`. -/
def normParts (rooted : Bool) (cs : List Str) : List Str :=
  cs.foldl (normStep rooted) []

/-- The drive prefix `ntpath.normpath` works with (after the separator
replacement pass). -/
def drivePart (p : Str) : Str := (splitDrive (toBackslash p)).1

/-- The path after the drive prefix (after separator replacement). -/
def pathRest (p : Str) : Str := (splitDrive (toBackslash p)).2

/-- Whether the path (after its drive) is rooted (starts with a separator). -/
def rootedOf (p : Str) : Bool :=
  match pathRest p with
  | c :: _ => isSep c
  | [] => false

/-- The normalized component list `ntpath.normpath` produces. -/
def npComps (p : Str) : List Str :=
  normParts (rootedOf p) (splitSeps (pathRest p))

/-- `ntpath.normpath`, restricted to drive-letter paths. -/
def normpath (p : Str) : Str :=
  if drivePart p = [] ∧ rootedOf p = false ∧ npComps p = [] then ['.']
  else drivePart p ++ (if rootedOf p then ['\\'] else []) ++ joinBS (npComps p)

/-- Length of the common prefix of two lists of components. -/
def commonLen : List Str → List Str → Nat
  | a :: as, b :: bs => if a = b then commonLen as bs + 1 else 0
  | _, _ => 0

/-- The drive of the normalized path, as `ntpath.relpath` splits it off. -/
def relDrive (p : Str) : Str := (splitDrive (normpath p)).1

/-- The non-empty components of the normalized path after its drive, as
`ntpath.relpath` enumerates them. -/
def relComps (p : Str) : List Str :=
  (splitSeps (splitDrive (normpath p)).2).filter (· ≠ [])

/-- The component sequence `ntpath.relpath` builds: `..` for every
uncommon component of `start`, then the uncommon components of `path`. -/
def relSuffix (path start : Str) : List Str :=
  List.replicate
      ((relComps start).length -
        commonLen ((relComps start).map lowerStr) ((relComps path).map lowerStr))
      ['.', '.'] ++
    (relComps path).drop
      (commonLen ((relComps start).map lowerStr) ((relComps path).map lowerStr))

/-- `ntpath.relpath path start` for absolute inputs (`abspath` is `normpath`
on already-absolute paths).  Returns `none` exactly where Python raises
`ValueError`: when the two drives differ under `normcase`. -/
def relpath (path start : Str) : Option Str :=
  if lowerStr (relDrive start) ≠ lowerStr (relDrive path) then none
  else some (if relSuffix path start = [] then ['.'] else joinBS (relSuffix path start))

/-- Does the string start with a dot?  (`str.startswith('.')`.) -/
def startsWithDot (s : Str) : Bool :=
  match s with
  | c :: _ => c = '.'
  | [] => false

/-- `winutils.is_file_into_dir`: `not os.path.relpath(filename, dirname).startswith('.')`,
with `ValueError` from `relpath` mapped to `False`. -/
def is_file_into_dir (filename dirname : Str) : Bool :=
  match relpath filename dirname with
  | none => false
  | some r => !(startsWithDot r)

/-- The non-rooted-second-argument case of `ntpath.join`: append `bp` to the
running path `rp`, inserting a separator when needed, with the drive-mismatch
reset of CPython's loop body. -/
def ntjoinRel (rd rp bd bp : Str) : Str :=
  if bd ≠ [] ∧ bd ≠ rd ∧ lowerStr bd ≠ lowerStr rd then bd ++ bp
  else
    (if bd ≠ [] then bd else rd) ++ rp ++
      (if rp ≠ [] ∧ isSep (rp.getLastD ' ') = false then ['\\'] else []) ++ bp

/-- `ntpath.join a b` for two arguments (drive-letter paths, no UNC). -/
def ntjoin (a b : Str) : Str :=
  let rdp := splitDrive a
  let bdp := splitDrive b
  match bdp.2 with
  | c :: _ =>
    if isSep c then
      (if bdp.1 ≠ [] ∨ rdp.1 = [] then bdp.1 else rdp.1) ++ bdp.2
    else
      ntjoinRel rdp.1 rdp.2 bdp.1 bdp.2
  | [] => ntjoinRel rdp.1 rdp.2 bdp.1 bdp.2

/-- Drop the longest suffix of characters satisfying `p` (right-side strip). -/
def dropEndWhile (p : Char → Bool) (s : Str) : Str :=
  (s.reverse.dropWhile p).reverse

/-- `ntpath.dirname` (head of `ntpath.split`), drive-letter paths. -/
def ntdirname (p : Str) : Str :=
  let dr := splitDrive p
  let head := (dr.2.reverse.dropWhile (fun c => !(isSep c))).reverse
  let h2 := dropEndWhile (fun c => isSep c) head
  dr.1 ++ (if h2 = [] then head else h2)

/-- Characters stripped by Python `str.strip()` (the ASCII whitespace set). -/
def isPySpace (c : Char) : Bool :=
  c = ' ' || c = '\t' || c = '\n' || c = '\r' || c = '\x0b' || c = '\x0c'

/-- Python `str.strip()`. -/
def pyStrip (s : Str) : Str :=
  dropEndWhile isPySpace (s.dropWhile isPySpace)

/-- The filesystem state: files as an association list from normalized
absolute path to content, directories as a list of normalized absolute
paths, and the set of destination paths (normalized) at which the copy
step raises an error (modelling e.g. permission denied on the target). -/
structure FS where
  files : List (Str × Str)
  dirs : List Str
  failCopy : List Str
  deriving DecidableEq

/-- A filesystem access, as performed by the Python code.  `readF` is an
attempt to open a file for reading its content; `statP` a metadata probe
(`os.path.exists` / `os.path.isdir`); `writeF`, `unlinkF` and `mkdirD` are
the mutations.  Paths are recorded as passed to the OS call. -/
inductive FsOp where
  | readF (p : Str)
  | statP (p : Str)
  | writeF (p : Str)
  | unlinkF (p : Str)
  | mkdirD (p : Str)
  deriving DecidableEq

/-- The exceptions `fix_all_git_symlinked` can propagate to its caller. -/
inductive RunErr where
  /-- `io.open` of the sentinel file raised (file missing). -/
  | sentinelMissing
  /-- `io.open` of the manifest file raised (file missing). -/
  | manifestMissing
  /-- `raise Exception(r'Bad data in \nikola\data\symlinked.txt')`. -/
  | badManifest
  /-- `io.open` of a placeholder file raised (file missing); carries the path. -/
  | placeholderOpenFailed (p : Str)
  deriving DecidableEq

instance : DecidableEq (Except RunErr Int) := fun a b =>
  match a, b with
  | Except.error x, Except.error y =>
    if h : x = y then isTrue (congrArg Except.error h)
    else isFalse (fun hh => h (by cases hh; rfl))
  | Except.ok x, Except.ok y =>
    if h : x = y then isTrue (congrArg Except.ok h)
    else isFalse (fun hh => h (by cases hh; rfl))
  | Except.error _, Except.ok _ => isFalse (fun hh => Except.noConfusion hh)
  | Except.ok _, Except.error _ => isFalse (fun hh => Except.noConfusion hh)

/-- Look up a file's content; the OS resolves the path lexically, which the
model reflects by keying on `normpath`. -/
def lookupFile (fs : FS) (p : Str) : Option Str :=
  (fs.files.find? (fun e => e.1 = normpath p)).map Prod.snd

/-- `os.path.isdir`. -/
def isDirFS (fs : FS) (p : Str) : Bool :=
  fs.dirs.contains (normpath p)

/-- `os.path.exists`. -/
def existsFS (fs : FS) (p : Str) : Bool :=
  (lookupFile fs p).isSome || isDirFS fs p

/-- `os.unlink p`. -/
def unlinkFS (fs : FS) (p : Str) : FS :=
  { fs with files := fs.files.filter (fun e => e.1 ≠ normpath p) }

/-- `shutil.copy2 src dst`: overwrite the destination file's content with
the source file's content (metadata is not modelled beyond content). -/
def copy2FS (fs : FS) (src dst : Str) : FS :=
  match lookupFile fs src with
  | some c =>
    { fs with files := (normpath dst, c) :: fs.files.filter (fun e => e.1 ≠ normpath dst) }
  | none => fs

/-- `shutil.copytree src dst`: create `dst` and copy every file and
directory under `src` to the corresponding path under `dst`. -/
def copytreeFS (fs : FS) (src dst : Str) : FS :=
  let s := normpath src
  let d := normpath dst
  let sub := fs.files.filterMap
    (fun e => if (s ++ ['\\']).isPrefixOf e.1 then some (d ++ e.1.drop s.length, e.2) else none)
  let subd := fs.dirs.filterMap
    (fun q => if (s ++ ['\\']).isPrefixOf q then some (d ++ q.drop s.length) else none)
  { fs with files := fs.files ++ sub, dirs := fs.dirs ++ d :: subd }

/-- The trace of filesystem accesses performed by `shutil.copytree src dst`:
a directory creation for `dst` and each source subdirectory, and a read
plus a write for each source file.  `src` is already normalized by the
caller (`os.path.normpath`); destination paths are built by joining the
raw `dst` with the entry's relative name. -/
def copytreeOps (fs : FS) (src dst : Str) : List FsOp :=
  let s := normpath src
  FsOp.mkdirD dst ::
    fs.dirs.filterMap
      (fun q => if (s ++ ['\\']).isPrefixOf q then some (FsOp.mkdirD (dst ++ q.drop s.length)) else none) ++
    fs.files.filterMap
      (fun e => if (s ++ ['\\']).isPrefixOf e.1 then some (FsOp.readF e.1) else none) ++
    fs.files.filterMap
      (fun e => if (s ++ ['\\']).isPrefixOf e.1 then some (FsOp.writeF (dst ++ e.1.drop s.length)) else none)

/-- The per-run mutable state of `fix_all_git_symlinked`'s loop: the
filesystem, the `failures` counter, the trace of filesystem accesses, the
diagnostic lines printed so far, and the pending propagating exception
(`some e` once an uncaught exception has been raised). -/
structure St where
  fs : FS
  failures : Nat
  ops : List FsOp
  diags : List Str
  err : Option RunErr
  deriving DecidableEq

/-- `topdir + r'\nikola\data\symlink-test-link.txt'`. -/
def sentinelPath (topdir : Str) : Str :=
  topdir ++ str "\\nikola\\data\\symlink-test-link.txt"

/-- `topdir + r'\nikola\data\symlinked.txt'`. -/
def manifestPath (topdir : Str) : Str :=
  topdir ++ str "\\nikola\\data\\symlinked.txt"

/-- Manifest parsing in `fix_all_git_symlinked`:
`text.split('\n')`, then `name.strip().replace('/', '\\')` per line, then
drop falsy (empty) entries. -/
def parseManifest (text : Str) : List Str :=
  let relnames := splitP (fun c => c = '\n') text
  let relnames := relnames.map (fun name => toBackslash (pyStrip name))
  relnames.filter (fun name => name ≠ [])

/-- The loop body of `fix_all_git_symlinked` for one manifest entry.  Once
an exception is propagating (`err` set) the remaining iterations do not
run.  Mirrors the source line by line: destination containment check,
`isdir` skip, the unguarded placeholder open (a failure here propagates),
source resolution and validation inside `try/except` (all total here, the
handler is only reachable through the `exists` skip), and the guarded copy
step with its failure accounting and diagnostics. -/
def processEntry (topdir : Str) (st : St) (name : Str) : St :=
  if st.err.isSome then st
  else
    let dst := ntjoin topdir name
    if is_file_into_dir dst topdir = false then st
    else
      let st1 : St := { st with ops := st.ops ++ [FsOp.statP dst] }
      if isDirFS st.fs dst then st1
      else
        let openPath := ntjoin topdir dst
        let st2 : St := { st1 with ops := st1.ops ++ [FsOp.readF openPath] }
        match lookupFile st.fs openPath with
        | none => { st2 with err := some (RunErr.placeholderOpenFailed openPath) }
        | some text =>
          let dst_dir := ntdirname dst
          let src := normpath (ntjoin dst_dir text)
          let st3 : St := { st2 with ops := st2.ops ++ [FsOp.statP src] }
          if existsFS st.fs src = false then st3
          else if is_file_into_dir src topdir = false then st3
          else
            let st4 : St := { st3 with ops := st3.ops ++ [FsOp.statP src] }
            if (st.fs.failCopy).contains (normpath dst) then
              { st4 with
                failures := st4.failures + 1
                diags := st4.diags ++
                  [str "*** copy failed for", str "\t src: " ++ src, str "\t dst: " ++ dst] }
            else if isDirFS st.fs src then
              { st4 with
                fs := copytreeFS (unlinkFS st.fs dst) src dst
                ops := st4.ops ++ FsOp.unlinkF dst :: copytreeOps (unlinkFS st.fs dst) src dst }
            else
              { st4 with
                fs := copy2FS st.fs src dst
                ops := st4.ops ++ [FsOp.readF src, FsOp.writeF dst] }

/-- The observable outcome of a run: the returned value or propagated
exception, the final filesystem, the access trace, and the diagnostics. -/
structure RunOut where
  ret : Except RunErr Int
  fs : FS
  ops : List FsOp
  diags : List Str
  deriving DecidableEq

/-- Package the final loop state as the run's outcome: a pending exception
propagates, otherwise the `failures` counter is returned. -/
def finishRun (stf : St) : RunOut :=
  match stf.err with
  | some e => ⟨Except.error e, stf.fs, stf.ops, stf.diags⟩
  | none => ⟨Except.ok (stf.failures : Int), stf.fs, stf.ops, stf.diags⟩

/-- `winutils.fix_all_git_symlinked topdir` over an explicit filesystem. -/
def fix_all_git_symlinked (topdir : Str) (fs : FS) : RunOut :=
  match lookupFile fs (sentinelPath topdir) with
  | none => ⟨Except.error RunErr.sentinelMissing, fs, [FsOp.readF (sentinelPath topdir)], []⟩
  | some text =>
    if (str "NIKOLA_SYMLINKS=OK").isPrefixOf text then
      ⟨Except.ok (-1), fs, [FsOp.readF (sentinelPath topdir)], []⟩
    else
      match lookupFile fs (manifestPath topdir) with
      | none =>
        ⟨Except.error RunErr.manifestMissing, fs,
          [FsOp.readF (sentinelPath topdir), FsOp.readF (manifestPath topdir)], []⟩
      | some mtext =>
        if startsWithDot mtext then
          ⟨Except.error RunErr.badManifest, fs,
            [FsOp.readF (sentinelPath topdir), FsOp.readF (manifestPath topdir)], []⟩
        else
          finishRun ((parseManifest mtext).foldl (processEntry topdir)
            ⟨fs, 0, [FsOp.readF (sentinelPath topdir), FsOp.readF (manifestPath topdir)], [], none⟩)

/-- The number of non-empty manifest entries visible in the filesystem
(`0` when the manifest file is absent, in which case the run propagates an
error anyway). -/
def numEntries (topdir : Str) (fs : FS) : Nat :=
  match lookupFile fs (manifestPath topdir) with
  | none => 0
  | some t => (parseManifest t).length

/-- Modelled from the spec's words (for comparison with `parseManifest`):
"Parse the manifest into an ordered sequence of non-empty relative path
entries, normalizing path separators to the host convention and trimming
surrounding whitespace per line", reading "split on newlines" for the line
decomposition. -/
def parseManifestSpec (text : Str) : List Str :=
  ((splitP (fun c => c = '\n') text).map (fun line => toBackslash (pyStrip line))).filter
    (fun entry => entry ≠ [])

/-- The path an operation mutates, if it is a mutation (`writeF`,
`unlinkF`, `mkdirD`); `none` for pure reads and stat probes. -/
def writePath : FsOp → Option Str
  | FsOp.writeF p => some p
  | FsOp.unlinkF p => some p
  | FsOp.mkdirD p => some p
  | _ => none

/-- Every mutation in the trace targets a path contained in `topdir`. -/
def OpsInside (topdir : Str) (ops : List FsOp) : Prop :=
  ∀ op ∈ ops, ∀ p, writePath op = some p → is_file_into_dir p topdir = true

/-- A clean path component: non-empty, not `.` or `..`, no separators. -/
def CleanComp (c : Str) : Prop :=
  c ≠ [] ∧ c ≠ ['.'] ∧ c ≠ ['.', '.'] ∧ ∀ ch ∈ c, isSep ch = false

instance (c : Str) : Decidable (CleanComp c) := by
  unfold CleanComp
  infer_instance

/-- Bool test for a well-formed normalized absolute path: a non-separator
drive letter, `:`, a rooted backslash, then clean components joined by
single backslashes (or nothing, for the bare drive root). -/
def wfAbsB (p : Str) : Bool :=
  match p with
  | a :: ':' :: '\\' :: rest =>
    !(isSep a) &&
      (rest = [] ||
        (decide (rest = joinBS (splitSeps rest)) &&
          (splitSeps rest).all (fun c => decide (CleanComp c))))
  | _ => false

/-- A well-formed normalized absolute path: a drive letter, a rooted
separator, and clean components. -/
def WfAbs (p : Str) : Prop := wfAbsB p = true

/-- A well-formed filesystem: every stored file and directory path is a
well-formed normalized absolute path (true of any real on-disk tree). -/
def WfFS (fs : FS) : Prop :=
  (∀ e ∈ fs.files, WfAbs e.1) ∧ ∀ q ∈ fs.dirs, WfAbs q

instance (p : Str) : Decidable (WfAbs p) := by
  unfold WfAbs
  infer_instance

instance (fs : FS) : Decidable (WfFS fs) := by
  unfold WfFS
  infer_instance

/-- The root directory used by the concrete scenarios below. -/
def topC : Str := str "c:\\top"

/-- Sentinel content that does not start with the success marker. -/
def noMarker : Str := str "NO"

/-- A filesystem whose manifest content begins with the path separator `/`. -/
def fsSlashManifest : FS :=
  ⟨[(sentinelPath topC, noMarker), (manifestPath topC, str "/x")], [topC], []⟩

/-- A filesystem whose manifest content begins with a dot. -/
def fsDotManifest : FS :=
  ⟨[(sentinelPath topC, noMarker), (manifestPath topC, str "./x")], [topC], []⟩

/-- A filesystem whose sentinel starts with the success marker. -/
def fsMarker : FS :=
  ⟨[(sentinelPath topC, str "NIKOLA_SYMLINKS=OK and more"),
    (manifestPath topC, str "x.txt")], [topC], []⟩

/-- Two manifest entries; the first destination file is missing, so the
placeholder open raises; the second is a valid placeholder. -/
def fsAbortRun : FS :=
  ⟨[(sentinelPath topC, noMarker),
    (manifestPath topC, str "a.txt\nb.txt"),
    (str "c:\\top\\b.txt", str "src.txt"),
    (str "c:\\top\\src.txt", str "real")], [topC], []⟩

/-- The spec's round-trip scenario as written: `docs/a.txt` holds
`../real/a.txt` and the file holding `"hello"` sits at `docs/real/a.txt`. -/
def fsRoundTripSpec : FS :=
  ⟨[(sentinelPath topC, noMarker),
    (manifestPath topC, str "docs/a.txt"),
    (str "c:\\top\\docs\\a.txt", str "../real/a.txt"),
    (str "c:\\top\\docs\\real\\a.txt", str "hello")],
   [topC, str "c:\\top\\docs", str "c:\\top\\docs\\real"], []⟩

/-- The corrected round-trip scenario: `../real/a.txt`, resolved against
`docs\`, names `real\a.txt` under the root, which holds `"hello"`. -/
def fsRoundTripFixed : FS :=
  ⟨[(sentinelPath topC, noMarker),
    (manifestPath topC, str "docs/a.txt"),
    (str "c:\\top\\docs\\a.txt", str "../real/a.txt"),
    (str "c:\\top\\real\\a.txt", str "hello")],
   [topC, str "c:\\top\\docs", str "c:\\top\\real"], []⟩

/-- Two valid placeholder entries; the copy step of the first raises. -/
def fsTwoEntries : FS :=
  ⟨[(sentinelPath topC, noMarker),
    (manifestPath topC, str "bad.txt\ngood.txt"),
    (str "c:\\top\\bad.txt", str "s1.txt"),
    (str "c:\\top\\s1.txt", str "one"),
    (str "c:\\top\\good.txt", str "s2.txt"),
    (str "c:\\top\\s2.txt", str "two")], [topC], [str "c:\\top\\bad.txt"]⟩

/-- One entry whose placeholder resolves to an existing directory. -/
def fsDirCase : FS :=
  ⟨[(sentinelPath topC, noMarker),
    (manifestPath topC, str "docs/thedir"),
    (str "c:\\top\\docs\\thedir", str "..\\srcdir"),
    (str "c:\\top\\srcdir\\f1.txt", str "F1"),
    (str "c:\\top\\srcdir\\sub\\f2.txt", str "F2")],
   [topC, str "c:\\top\\docs", str "c:\\top\\srcdir", str "c:\\top\\srcdir\\sub"], []⟩

/-- One entry whose placeholder content resolves to a path outside the
root (`..\\..\\outside.txt` escapes `c:\\top`). -/
def fsProbe : FS :=
  ⟨[(sentinelPath topC, noMarker),
    (manifestPath topC, str "docs/a.txt"),
    (str "c:\\top\\docs\\a.txt", str "..\\..\\outside.txt")],
   [topC, str "c:\\top\\docs"], []⟩

/-- C9: `fix_all_git_symlinked` parses the manifest into an ordered
sequence of entries split on newlines, with surrounding whitespace trimmed
per line, path separators normalized to the host (backslash) convention,
and empty entries discarded — the code's `parseManifest` coincides with
the spec-worded `parseManifestSpec` on every manifest content. -/
theorem c9_manifest_parse : parseManifest = parseManifestSpec := rfl

/-- C5: whenever the sentinel file's content starts with the marker
`NIKOLA_SYMLINKS=OK`, the run returns the negative sentinel `-1`, leaves
the filesystem unchanged, performs exactly one read (the sentinel) and no
other access, and prints nothing. -/
theorem c5_sentinel_short_circuit (topdir : Str) (fs : FS) (t : Str)
    (h1 : lookupFile fs (sentinelPath topdir) = some t)
    (h2 : (str "NIKOLA_SYMLINKS=OK").isPrefixOf t = true) :
    fix_all_git_symlinked topdir fs =
      ⟨Except.ok (-1), fs, [FsOp.readF (sentinelPath topdir)], []⟩ := by
  simp [fix_all_git_symlinked, h1, h2]

/-- Witness for C5 at a concrete root and filesystem. -/
theorem c5_witness :
    fix_all_git_symlinked topC fsMarker =
      ⟨Except.ok (-1), fsMarker, [FsOp.readF (sentinelPath topC)], []⟩ :=
  c5_sentinel_short_circuit topC fsMarker (str "NIKOLA_SYMLINKS=OK and more")
    (by decide) (by decide)

/-- C1 counterexample: a manifest whose content begins with the path
separator `/` does not make the run raise: it returns `Except.ok 0` and
performs no write.  (The code's fatal check is `text.startswith('.')`, a
dot, not a path separator.) -/
theorem c1_counterexample :
    lookupFile fsSlashManifest (manifestPath topC) = some (str "/x") ∧
    isSep '/' = true ∧
    fix_all_git_symlinked topC fsSlashManifest =
      ⟨Except.ok 0, fsSlashManifest,
        [FsOp.readF (sentinelPath topC), FsOp.readF (manifestPath topC)], []⟩ := by
  refine ⟨by decide, by decide, ?_⟩
  decide

/-- C1 (amended): for every manifest file whose content begins with a dot
character (`.`), `fix_all_git_symlinked` raises the fatal data-integrity
error and performs zero filesystem writes — the run ends with
`RunErr.badManifest`, the filesystem unchanged, and a trace holding only
the two control-file reads. -/
theorem c1_manifest_dot_fatal (topdir : Str) (fs : FS) (t m : Str)
    (h1 : lookupFile fs (sentinelPath topdir) = some t)
    (h2 : (str "NIKOLA_SYMLINKS=OK").isPrefixOf t = false)
    (h3 : lookupFile fs (manifestPath topdir) = some m)
    (h4 : startsWithDot m = true) :
    fix_all_git_symlinked topdir fs =
      ⟨Except.error RunErr.badManifest, fs,
        [FsOp.readF (sentinelPath topdir), FsOp.readF (manifestPath topdir)], []⟩ := by
  simp [fix_all_git_symlinked, h1, h2, h3, h4]

/-- Witness for the amended C1 at a concrete manifest starting with `.`. -/
theorem c1_witness :
    fix_all_git_symlinked topC fsDotManifest =
      ⟨Except.error RunErr.badManifest, fsDotManifest,
        [FsOp.readF (sentinelPath topC), FsOp.readF (manifestPath topC)], []⟩ :=
  c1_manifest_dot_fatal topC fsDotManifest noMarker (str "./x")
    (by decide) (by decide) (by decide) (by decide)

/-- C2 counterexample: an error while reading the first entry's
placeholder content (the destination file `a.txt` is absent) aborts the
whole run: the run ends with a propagated exception and the valid second
entry `b.txt` is never repaired (its placeholder content is untouched). -/
theorem c2_counterexample :
    (fix_all_git_symlinked topC fsAbortRun).ret =
      Except.error (RunErr.placeholderOpenFailed (str "c:\\top\\a.txt")) ∧
    lookupFile (fix_all_git_symlinked topC fsAbortRun).fs (str "c:\\top\\b.txt") =
      some (str "src.txt") := by
  exact ⟨by decide, by decide⟩

/-- C2 (amended): per-entry errors raised after the placeholder file has
been opened successfully — resolving its content and copying — are
recovered locally and never set a propagating exception; the only
per-entry error that aborts the run is a failure to open the placeholder
file itself. -/
theorem c2_per_entry_recovery (topdir : Str) (st : St) (name : Str)
    (h : st.err = none) :
    (processEntry topdir st name).err = none ∨
    ∃ p, (processEntry topdir st name).err = some (RunErr.placeholderOpenFailed p) ∧
      lookupFile st.fs p = none := by
  unfold processEntry
  rw [h]
  simp only [Option.isSome_none, Bool.false_eq_true, if_false]
  split
  · exact Or.inl h
  · split
    · exact Or.inl rfl
    · split
      · next hl => exact Or.inr ⟨_, rfl, hl⟩
      · split
        · exact Or.inl rfl
        · split
          · exact Or.inl rfl
          · split
            · exact Or.inl rfl
            · split
              · exact Or.inl rfl
              · exact Or.inl rfl

/-- Witness for the amended C2 at a concrete state and entry. -/
theorem c2_witness :
    (processEntry topC ⟨fsTwoEntries, 0, [], [], none⟩ (str "bad.txt")).err = none ∨
    ∃ p, (processEntry topC ⟨fsTwoEntries, 0, [], [], none⟩ (str "bad.txt")).err =
        some (RunErr.placeholderOpenFailed p) ∧
      lookupFile fsTwoEntries p = none :=
  c2_per_entry_recovery topC ⟨fsTwoEntries, 0, [], [], none⟩ (str "bad.txt") rfl

/-- C6 counterexample: in the spec's own round-trip scenario (destination
`docs\a.txt` holding `../real/a.txt`, the `"hello"` file at
`docs\real\a.txt`), the run completes without repairing the destination:
`../real/a.txt` resolves against `docs\` to `real\a.txt`, which does not
exist, so the placeholder keeps its placeholder content instead of
`"hello"`. -/
theorem c6_counterexample :
    (fix_all_git_symlinked topC fsRoundTripSpec).ret = Except.ok 0 ∧
    lookupFile (fix_all_git_symlinked topC fsRoundTripSpec).fs
        (str "c:\\top\\docs\\a.txt") = some (str "../real/a.txt") ∧
    str "../real/a.txt" ≠ str "hello" := by
  exact ⟨by decide, by decide, by decide⟩

/-- C6 (amended): with the `"hello"` file where the placeholder content
actually resolves — `real\a.txt` under the root — the destination
`docs\a.txt` ends up containing exactly `"hello"` and the run reports
zero failures. -/
theorem c6_round_trip :
    (fix_all_git_symlinked topC fsRoundTripFixed).ret = Except.ok 0 ∧
    lookupFile (fix_all_git_symlinked topC fsRoundTripFixed).fs
        (str "c:\\top\\docs\\a.txt") = some (str "hello") := by
  exact ⟨by decide, by decide⟩

/-- C4 counterexample: for the candidate `c:\top\.hidden` under root
`c:\top`, the relative path `.hidden` exists and does not begin with a
parent-directory traversal segment (`..`), yet `is_file_into_dir` returns
`false` — the code tests `startswith('.')`, not parent traversal. -/
theorem c4_counterexample :
    is_file_into_dir (str "c:\\top\\.hidden") (str "c:\\top") = false ∧
    relpath (str "c:\\top\\.hidden") (str "c:\\top") = some (str ".hidden") ∧
    (str "..").isPrefixOf (str ".hidden") = false := by
  exact ⟨by decide, by decide, by decide⟩

/-- C4 (amended): `is_file_into_dir` returns `true` exactly when the
relative path of the candidate from the root exists and does not begin
with a dot character (which subsumes parent-traversal segments), and when
the relative-path computation fails it returns `false`; it is a pure
function of its arguments. -/
theorem c4_containment_spec (filename dirname : Str) :
    (relpath filename dirname = none → is_file_into_dir filename dirname = false) ∧
    (is_file_into_dir filename dirname = true ↔
      ∃ r, relpath filename dirname = some r ∧ startsWithDot r = false) := by
  constructor
  · intro h
    unfold is_file_into_dir
    rw [h]
  · unfold is_file_into_dir
    cases hr : relpath filename dirname with
    | none => simp
    | some r =>
      simp only [Bool.not_eq_true', Option.some.injEq]
      constructor
      · intro h
        exact ⟨r, rfl, h⟩
      · rintro ⟨r', hr', h⟩
        rw [hr']
        exact h

/-- Witness for the amended C4: a candidate on another drive makes the
relative-path computation fail, and the check reports not-contained. -/
theorem c4_witness : is_file_into_dir (str "d:\\x") (str "c:\\top") = false :=
  (c4_containment_spec (str "d:\\x") (str "c:\\top")).1 (by decide)

/-- One loop iteration increments the failure counter by at most one. -/
theorem processEntry_failures_le (topdir : Str) (st : St) (name : Str) :
    (processEntry topdir st name).failures ≤ st.failures + 1 := by
  unfold processEntry
  simp only []
  repeat' split
  all_goals simp_arith

/-- The loop's failure counter is bounded by the number of entries. -/
theorem foldl_failures_le (topdir : Str) (names : List Str) (st : St) :
    (names.foldl (processEntry topdir) st).failures ≤ st.failures + names.length := by
  induction names generalizing st with
  | nil => simp
  | cons n ns ih =>
    have h1 := ih (processEntry topdir st n)
    have h2 := processEntry_failures_le topdir st n
    simp only [List.foldl_cons, List.length_cons]
    omega

/-- C10: whenever `fix_all_git_symlinked` returns without raising, its
return value is either exactly `-1` or a non-negative integer no greater
than the number of non-empty manifest entries. -/
theorem c10_return_bounds (topdir : Str) (fs : FS) (r : Int)
    (h : (fix_all_git_symlinked topdir fs).ret = Except.ok r) :
    r = -1 ∨ (0 ≤ r ∧ r ≤ (numEntries topdir fs : Int)) := by
  unfold fix_all_git_symlinked at h
  cases hsp : lookupFile fs (sentinelPath topdir) with
  | none => rw [hsp] at h; simp at h
  | some text =>
    rw [hsp] at h
    by_cases hok : (str "NIKOLA_SYMLINKS=OK").isPrefixOf text = true
    · simp only [hok, if_true] at h
      left
      exact (Except.ok.inj h).symm
    · simp only [Bool.not_eq_true] at hok
      simp only [hok, Bool.false_eq_true, if_false] at h
      cases hmp : lookupFile fs (manifestPath topdir) with
      | none => rw [hmp] at h; simp at h
      | some mtext =>
        rw [hmp] at h
        by_cases hdot : startsWithDot mtext = true
        · simp only [hdot, if_true] at h
          simp at h
        · simp only [Bool.not_eq_true] at hdot
          simp only [hdot, Bool.false_eq_true, if_false, finishRun] at h
          set stf := (parseManifest mtext).foldl (processEntry topdir)
            ⟨fs, 0, [FsOp.readF (sentinelPath topdir), FsOp.readF (manifestPath topdir)], [], none⟩
            with hstf
          cases herr : stf.err with
          | some e => rw [herr] at h; simp at h
          | none =>
            rw [herr] at h
            simp only at h
            right
            have hb := foldl_failures_le topdir (parseManifest mtext)
              ⟨fs, 0, [FsOp.readF (sentinelPath topdir), FsOp.readF (manifestPath topdir)], [], none⟩
            rw [← hstf] at hb
            have hr : r = (stf.failures : Int) := (Except.ok.inj h).symm
            have hnum : numEntries topdir fs = (parseManifest mtext).length := by
              unfold numEntries
              rw [hmp]
            rw [hr, hnum]
            constructor
            · exact Int.ofNat_nonneg _
            · have hb2 : stf.failures ≤ (parseManifest mtext).length := by simpa using hb
              exact_mod_cast hb2

/-- After both control files are read successfully and the manifest is not
dot-led, the run is the loop over the parsed entries. -/
theorem fix_run_eq (topdir : Str) (fs : FS) (t m : Str)
    (hs : lookupFile fs (sentinelPath topdir) = some t)
    (hns : (str "NIKOLA_SYMLINKS=OK").isPrefixOf t = false)
    (hm : lookupFile fs (manifestPath topdir) = some m)
    (hnd : startsWithDot m = false) :
    fix_all_git_symlinked topdir fs =
      finishRun ((parseManifest m).foldl (processEntry topdir)
        ⟨fs, 0, [FsOp.readF (sentinelPath topdir), FsOp.readF (manifestPath topdir)], [], none⟩) := by
  unfold fix_all_git_symlinked
  rw [hs]
  simp only [hns, Bool.false_eq_true, if_false]
  rw [hm]
  simp [hnd]

/-- Looking up the destination after `copy2FS` yields the source content. -/
theorem copy2FS_lookup (fs : FS) (src dst : Str) (c : Str)
    (h : lookupFile fs src = some c) :
    lookupFile (copy2FS fs src dst) dst = some c := by
  unfold copy2FS
  rw [h]
  unfold lookupFile
  simp [List.find?]

/-- Evaluation of one loop iteration when every validation passes and the
copy step raises: the failure counter advances by one, the diagnostic
lines naming source and destination are printed, and nothing else (state,
pending exception) changes. -/
theorem processEntry_copyfail (topdir : Str) (st : St) (name t1 : Str)
    (h0 : st.err = none)
    (h1 : is_file_into_dir (ntjoin topdir name) topdir = true)
    (h2 : isDirFS st.fs (ntjoin topdir name) = false)
    (h3 : lookupFile st.fs (ntjoin topdir (ntjoin topdir name)) = some t1)
    (h4 : existsFS st.fs (normpath (ntjoin (ntdirname (ntjoin topdir name)) t1)) = true)
    (h5 : is_file_into_dir (normpath (ntjoin (ntdirname (ntjoin topdir name)) t1)) topdir = true)
    (h6 : st.fs.failCopy.contains (normpath (ntjoin topdir name)) = true) :
    processEntry topdir st name =
      { st with
        failures := st.failures + 1
        ops := st.ops ++
          [FsOp.statP (ntjoin topdir name),
           FsOp.readF (ntjoin topdir (ntjoin topdir name)),
           FsOp.statP (normpath (ntjoin (ntdirname (ntjoin topdir name)) t1)),
           FsOp.statP (normpath (ntjoin (ntdirname (ntjoin topdir name)) t1))]
        diags := st.diags ++
          [str "*** copy failed for",
           str "\t src: " ++ normpath (ntjoin (ntdirname (ntjoin topdir name)) t1),
           str "\t dst: " ++ ntjoin topdir name] } := by
  unfold processEntry
  rw [h0]
  simp only [Option.isSome_none, Bool.false_eq_true, if_false]
  simp only [h1, h2, h3, h4, h5, h6]
  simp [List.append_assoc]

/-- Evaluation of one loop iteration when every validation passes, the
source is a regular file, and the copy succeeds: the destination is
overwritten with the source's content via `shutil.copy2`. -/
theorem processEntry_copyfile (topdir : Str) (st : St) (name t1 : Str)
    (h0 : st.err = none)
    (h1 : is_file_into_dir (ntjoin topdir name) topdir = true)
    (h2 : isDirFS st.fs (ntjoin topdir name) = false)
    (h3 : lookupFile st.fs (ntjoin topdir (ntjoin topdir name)) = some t1)
    (h4 : existsFS st.fs (normpath (ntjoin (ntdirname (ntjoin topdir name)) t1)) = true)
    (h5 : is_file_into_dir (normpath (ntjoin (ntdirname (ntjoin topdir name)) t1)) topdir = true)
    (h6 : st.fs.failCopy.contains (normpath (ntjoin topdir name)) = false)
    (h7 : isDirFS st.fs (normpath (ntjoin (ntdirname (ntjoin topdir name)) t1)) = false) :
    processEntry topdir st name =
      { st with
        fs := copy2FS st.fs (normpath (ntjoin (ntdirname (ntjoin topdir name)) t1)) (ntjoin topdir name)
        ops := st.ops ++
          [FsOp.statP (ntjoin topdir name),
           FsOp.readF (ntjoin topdir (ntjoin topdir name)),
           FsOp.statP (normpath (ntjoin (ntdirname (ntjoin topdir name)) t1)),
           FsOp.statP (normpath (ntjoin (ntdirname (ntjoin topdir name)) t1)),
           FsOp.readF (normpath (ntjoin (ntdirname (ntjoin topdir name)) t1)),
           FsOp.writeF (ntjoin topdir name)] } := by
  unfold processEntry
  rw [h0]
  simp only [Option.isSome_none, Bool.false_eq_true, if_false]
  simp only [h1, h2, h3, h4, h5, h6, h7]
  simp [List.append_assoc]

/-- Evaluation of one loop iteration when every validation passes, the
source is a directory, and the copy succeeds: the destination placeholder
is unlinked and the source tree is copied over. -/
theorem processEntry_copydir (topdir : Str) (st : St) (name t1 : Str)
    (h0 : st.err = none)
    (h1 : is_file_into_dir (ntjoin topdir name) topdir = true)
    (h2 : isDirFS st.fs (ntjoin topdir name) = false)
    (h3 : lookupFile st.fs (ntjoin topdir (ntjoin topdir name)) = some t1)
    (h4 : existsFS st.fs (normpath (ntjoin (ntdirname (ntjoin topdir name)) t1)) = true)
    (h5 : is_file_into_dir (normpath (ntjoin (ntdirname (ntjoin topdir name)) t1)) topdir = true)
    (h6 : st.fs.failCopy.contains (normpath (ntjoin topdir name)) = false)
    (h7 : isDirFS st.fs (normpath (ntjoin (ntdirname (ntjoin topdir name)) t1)) = true) :
    processEntry topdir st name =
      { st with
        fs := copytreeFS (unlinkFS st.fs (ntjoin topdir name))
          (normpath (ntjoin (ntdirname (ntjoin topdir name)) t1)) (ntjoin topdir name)
        ops := st.ops ++
          [FsOp.statP (ntjoin topdir name),
           FsOp.readF (ntjoin topdir (ntjoin topdir name)),
           FsOp.statP (normpath (ntjoin (ntdirname (ntjoin topdir name)) t1)),
           FsOp.statP (normpath (ntjoin (ntdirname (ntjoin topdir name)) t1))] ++
          FsOp.unlinkF (ntjoin topdir name) ::
            copytreeOps (unlinkFS st.fs (ntjoin topdir name))
              (normpath (ntjoin (ntdirname (ntjoin topdir name)) t1)) (ntjoin topdir name) } := by
  unfold processEntry
  rw [h0]
  simp only [Option.isSome_none, Bool.false_eq_true, if_false]
  simp only [h1, h2, h3, h4, h5, h6, h7]
  simp [List.append_assoc]

/-- C7: for every pair of manifest entries where both entries pass all
validations, the copy step of the first raises, and the second (a regular
file) is valid, `fix_all_git_symlinked` does not propagate the error, its
diagnostics are exactly the lines naming the failed source and
destination, the second entry's destination still receives its source's
content, and the returned failure count is exactly 1. -/
theorem c7_failure_isolation (topdir : Str) (fs : FS) (t m n1 n2 t1 t2 c2 : Str)
    (hs : lookupFile fs (sentinelPath topdir) = some t)
    (hns : (str "NIKOLA_SYMLINKS=OK").isPrefixOf t = false)
    (hm : lookupFile fs (manifestPath topdir) = some m)
    (hnd : startsWithDot m = false)
    (hp : parseManifest m = [n1, n2])
    (h11 : is_file_into_dir (ntjoin topdir n1) topdir = true)
    (h12 : isDirFS fs (ntjoin topdir n1) = false)
    (h13 : lookupFile fs (ntjoin topdir (ntjoin topdir n1)) = some t1)
    (h14 : existsFS fs (normpath (ntjoin (ntdirname (ntjoin topdir n1)) t1)) = true)
    (h15 : is_file_into_dir (normpath (ntjoin (ntdirname (ntjoin topdir n1)) t1)) topdir = true)
    (h16 : fs.failCopy.contains (normpath (ntjoin topdir n1)) = true)
    (h21 : is_file_into_dir (ntjoin topdir n2) topdir = true)
    (h22 : isDirFS fs (ntjoin topdir n2) = false)
    (h23 : lookupFile fs (ntjoin topdir (ntjoin topdir n2)) = some t2)
    (h24 : existsFS fs (normpath (ntjoin (ntdirname (ntjoin topdir n2)) t2)) = true)
    (h25 : is_file_into_dir (normpath (ntjoin (ntdirname (ntjoin topdir n2)) t2)) topdir = true)
    (h26 : fs.failCopy.contains (normpath (ntjoin topdir n2)) = false)
    (h27 : isDirFS fs (normpath (ntjoin (ntdirname (ntjoin topdir n2)) t2)) = false)
    (h28 : lookupFile fs (normpath (ntjoin (ntdirname (ntjoin topdir n2)) t2)) = some c2) :
    (fix_all_git_symlinked topdir fs).ret = Except.ok 1 ∧
    (fix_all_git_symlinked topdir fs).diags =
      [str "*** copy failed for",
       str "\t src: " ++ normpath (ntjoin (ntdirname (ntjoin topdir n1)) t1),
       str "\t dst: " ++ ntjoin topdir n1] ∧
    lookupFile (fix_all_git_symlinked topdir fs).fs (ntjoin topdir n2) = some c2 := by
  rw [fix_run_eq topdir fs t m hs hns hm hnd, hp]
  simp only [List.foldl_cons, List.foldl_nil]
  rw [processEntry_copyfail topdir _ n1 t1 rfl h11 h12 h13 h14 h15 h16]
  rw [processEntry_copyfile topdir _ n2 t2 rfl h21 h22 h23 h24 h25 h26 h27]
  refine ⟨rfl, rfl, ?_⟩
  exact copy2FS_lookup fs _ _ c2 h28

/-- Witness for C7 at a concrete pair of entries. -/
theorem c7_witness :
    (fix_all_git_symlinked topC fsTwoEntries).ret = Except.ok 1 ∧
    (fix_all_git_symlinked topC fsTwoEntries).diags =
      [str "*** copy failed for",
       str "\t src: " ++ normpath (ntjoin (ntdirname (ntjoin topC (str "bad.txt"))) (str "s1.txt")),
       str "\t dst: " ++ ntjoin topC (str "bad.txt")] ∧
    lookupFile (fix_all_git_symlinked topC fsTwoEntries).fs (ntjoin topC (str "good.txt")) =
      some (str "two") :=
  c7_failure_isolation topC fsTwoEntries noMarker (str "bad.txt\ngood.txt")
    (str "bad.txt") (str "good.txt") (str "s1.txt") (str "s2.txt") (str "two")
    (by decide) (by decide) (by decide) (by decide) (by decide)
    (by decide) (by decide) (by decide) (by decide) (by decide) (by decide)
    (by decide) (by decide) (by decide) (by decide) (by decide) (by decide)
    (by decide) (by decide)

/-- Effect of `os.unlink(dst)` followed by `shutil.copytree(src, dst)` on
the filesystem, under freshness of the destination (no pre-existing entry
under it, as holds when `dst` was a placeholder file) and the destination
not lying inside the source tree: the destination is no longer a file, it
is a directory, and the trees below destination and source coincide. -/
theorem copytree_unlink_spec (fs : FS) (src dst : Str)
    (hf1 : ∀ e ∈ fs.files, (normpath dst ++ ['\\']).isPrefixOf e.1 = false)
    (hf2 : ∀ q ∈ fs.dirs, (normpath dst ++ ['\\']).isPrefixOf q = false)
    (hnod : (normpath src ++ ['\\']).isPrefixOf (normpath dst) = false) :
    lookupFile (copytreeFS (unlinkFS fs dst) src dst) dst = none ∧
    isDirFS (copytreeFS (unlinkFS fs dst) src dst) dst = true ∧
    (∀ u c, (normpath dst ++ '\\' :: u, c) ∈ (copytreeFS (unlinkFS fs dst) src dst).files ↔
      (normpath src ++ '\\' :: u, c) ∈ fs.files) ∧
    (∀ u, (normpath dst ++ '\\' :: u) ∈ (copytreeFS (unlinkFS fs dst) src dst).dirs ↔
      (normpath src ++ '\\' :: u) ∈ fs.dirs) := by
  have hpref : ∀ w u : Str, (w ++ ['\\']).isPrefixOf (w ++ '\\' :: u) = true := by
    intro w u
    rw [List.isPrefixOf_iff_prefix]
    exact ⟨u, by simp⟩
  have hdrop : ∀ w u : Str, (w ++ '\\' :: u).drop w.length = '\\' :: u := by
    intro w u
    exact List.drop_left w ('\\' :: u)
  have hext : ∀ w p : Str, (w ++ ['\\']).isPrefixOf p = true → ∃ u, p = w ++ '\\' :: u := by
    intro w p hp
    rcases List.isPrefixOf_iff_prefix.mp hp with ⟨u, hu⟩
    exact ⟨u, by rw [← hu]; simp⟩
  refine ⟨?_, ?_, ?_, ?_⟩
  · unfold copytreeFS unlinkFS lookupFile
    simp only [Option.map_eq_none']
    rw [List.find?_eq_none]
    intro e he
    rcases List.mem_append.mp he with hl | hr
    · have := (List.mem_filter.mp hl).2
      simpa using this
    · rcases List.mem_filterMap.mp hr with ⟨a, _, ha⟩
      by_cases hpa : ((normpath src ++ ['\\']).isPrefixOf a.1 = true)
      · rw [if_pos hpa] at ha
        rcases hext _ _ hpa with ⟨u, hu⟩
        have he1 : normpath dst ++ '\\' :: u = e.1 := by
          have h := congrArg Prod.fst (Option.some.inj ha)
          rw [hu, hdrop] at h
          exact h
        intro hkey
        rw [decide_eq_true_eq] at hkey
        have hcontr : normpath dst ++ '\\' :: u = normpath dst := he1.trans hkey
        have hl := congrArg List.length hcontr
        simp at hl
      · rw [if_neg hpa] at ha
        cases ha
  · unfold copytreeFS unlinkFS isDirFS
    simp [List.elem_iff]
  · intro u c
    constructor
    · intro hmem
      unfold copytreeFS unlinkFS at hmem
      rcases List.mem_append.mp hmem with hl | hr
      · exfalso
        have h1 := (List.mem_filter.mp hl).1
        have := hf1 _ h1
        rw [hpref] at this
        cases this
      · rcases List.mem_filterMap.mp hr with ⟨a, hain, ha⟩
        by_cases hpa : ((normpath src ++ ['\\']).isPrefixOf a.1 = true)
        · rw [if_pos hpa] at ha
          rcases hext _ _ hpa with ⟨w, hw⟩
          rw [hw, hdrop] at ha
          have hpair := Option.some.inj ha
          have hfst : normpath dst ++ '\\' :: w = normpath dst ++ '\\' :: u :=
            congrArg Prod.fst hpair
          have hwu : w = u := by
            have := List.append_cancel_left hfst
            simpa using this
          have hsnd : a.2 = c := congrArg Prod.snd hpair
          rw [hwu] at hw
          have : a ∈ fs.files := (List.mem_filter.mp hain).1
          rw [(show a = (normpath src ++ '\\' :: u, c) from Prod.ext hw hsnd)] at this
          exact this
        · rw [if_neg hpa] at ha
          cases ha
    · intro hmem
      unfold copytreeFS unlinkFS
      apply List.mem_append.mpr
      right
      apply List.mem_filterMap.mpr
      refine ⟨(normpath src ++ '\\' :: u, c), ?_, ?_⟩
      · apply List.mem_filter.mpr
        refine ⟨hmem, ?_⟩
        simp only [decide_eq_true_eq]
        intro hkey
        rw [← hkey] at hnod
        rw [hpref] at hnod
        cases hnod
      · rw [if_pos (hpref _ _)]
        rw [hdrop]
  · intro u
    constructor
    · intro hmem
      unfold copytreeFS unlinkFS at hmem
      rcases List.mem_append.mp hmem with hl | hr
      · exfalso
        have := hf2 _ hl
        rw [hpref] at this
        cases this
      · rcases List.mem_cons.mp hr with hd | htl
        · exfalso
          have : (normpath dst ++ '\\' :: u).length = (normpath dst).length := by rw [hd]
          simp at this
        · rcases List.mem_filterMap.mp htl with ⟨q, hqin, hq⟩
          by_cases hpq : ((normpath src ++ ['\\']).isPrefixOf q = true)
          · rw [if_pos hpq] at hq
            rcases hext _ _ hpq with ⟨w, hw⟩
            rw [hw, hdrop] at hq
            have hwu : w = u := by
              have := List.append_cancel_left (Option.some.inj hq)
              simpa using this
            rw [hwu] at hw
            rw [← hw]
            exact hqin
          · rw [if_neg hpq] at hq
            cases hq
    · intro hmem
      unfold copytreeFS unlinkFS
      apply List.mem_append.mpr
      right
      apply List.mem_cons.mpr
      right
      apply List.mem_filterMap.mpr
      refine ⟨normpath src ++ '\\' :: u, hmem, ?_⟩
      rw [if_pos (hpref _ _)]
      rw [hdrop]

/-- C8: for a manifest entry whose placeholder content resolves to an
existing directory inside the root (and which passes the code's other
entry validations, with the copy step succeeding and the destination
fresh), after running `fix_all_git_symlinked` the placeholder no longer
exists as a file, the destination is a directory, and the tree below the
destination is identical to the tree below the source. -/
theorem c8_directory_case (topdir : Str) (fs : FS) (t m name t1 src : Str)
    (hs : lookupFile fs (sentinelPath topdir) = some t)
    (hns : (str "NIKOLA_SYMLINKS=OK").isPrefixOf t = false)
    (hm : lookupFile fs (manifestPath topdir) = some m)
    (hnd : startsWithDot m = false)
    (hp : parseManifest m = [name])
    (hsrc : normpath (ntjoin (ntdirname (ntjoin topdir name)) t1) = src)
    (h1 : is_file_into_dir (ntjoin topdir name) topdir = true)
    (h2 : isDirFS fs (ntjoin topdir name) = false)
    (h3 : lookupFile fs (ntjoin topdir (ntjoin topdir name)) = some t1)
    (h4 : existsFS fs src = true)
    (h5 : is_file_into_dir src topdir = true)
    (h6 : fs.failCopy.contains (normpath (ntjoin topdir name)) = false)
    (h7 : isDirFS fs src = true)
    (hf1 : ∀ e ∈ fs.files, (normpath (ntjoin topdir name) ++ ['\\']).isPrefixOf e.1 = false)
    (hf2 : ∀ q ∈ fs.dirs, (normpath (ntjoin topdir name) ++ ['\\']).isPrefixOf q = false)
    (hnod : (normpath src ++ ['\\']).isPrefixOf (normpath (ntjoin topdir name)) = false) :
    (fix_all_git_symlinked topdir fs).ret = Except.ok 0 ∧
    lookupFile (fix_all_git_symlinked topdir fs).fs (ntjoin topdir name) = none ∧
    isDirFS (fix_all_git_symlinked topdir fs).fs (ntjoin topdir name) = true ∧
    (∀ u c, (normpath (ntjoin topdir name) ++ '\\' :: u, c) ∈
        (fix_all_git_symlinked topdir fs).fs.files ↔
      (normpath src ++ '\\' :: u, c) ∈ fs.files) ∧
    (∀ u, (normpath (ntjoin topdir name) ++ '\\' :: u) ∈
        (fix_all_git_symlinked topdir fs).fs.dirs ↔
      (normpath src ++ '\\' :: u) ∈ fs.dirs) := by
  rw [fix_run_eq topdir fs t m hs hns hm hnd, hp]
  simp only [List.foldl_cons, List.foldl_nil]
  rw [processEntry_copydir topdir _ name t1 rfl h1 h2 h3
    (by rw [hsrc]; exact h4) (by rw [hsrc]; exact h5) h6 (by rw [hsrc]; exact h7)]
  have hspec := copytree_unlink_spec fs src (ntjoin topdir name) hf1 hf2 hnod
  rw [hsrc]
  exact ⟨rfl, hspec.1, hspec.2.1, hspec.2.2.1, hspec.2.2.2⟩

/-- Witness for C8 at a concrete directory entry. -/
theorem c8_witness :
    (fix_all_git_symlinked topC fsDirCase).ret = Except.ok 0 ∧
    lookupFile (fix_all_git_symlinked topC fsDirCase).fs (ntjoin topC (str "docs\\thedir")) = none ∧
    isDirFS (fix_all_git_symlinked topC fsDirCase).fs (ntjoin topC (str "docs\\thedir")) = true ∧
    (∀ u c, (normpath (ntjoin topC (str "docs\\thedir")) ++ '\\' :: u, c) ∈
        (fix_all_git_symlinked topC fsDirCase).fs.files ↔
      (normpath (str "c:\\top\\srcdir") ++ '\\' :: u, c) ∈ fsDirCase.files) ∧
    (∀ u, (normpath (ntjoin topC (str "docs\\thedir")) ++ '\\' :: u) ∈
        (fix_all_git_symlinked topC fsDirCase).fs.dirs ↔
      (normpath (str "c:\\top\\srcdir") ++ '\\' :: u) ∈ fsDirCase.dirs) :=
  c8_directory_case topC fsDirCase noMarker (str "docs/thedir") (str "docs\\thedir")
    (str "..\\srcdir") (str "c:\\top\\srcdir")
    (by decide) (by decide) (by decide) (by decide) (by decide) (by decide)
    (by decide) (by decide) (by decide) (by decide) (by decide) (by decide)
    (by decide) (by decide) (by decide) (by decide)

/-- `splitP` of a cons at a separator character. -/
theorem splitP_cons_pos (p : Char → Bool) (c : Char) (s : Str) (hc : p c = true) :
    splitP p (c :: s) = [] :: splitP p s := by
  simp [splitP, hc]

/-- `splitP` never returns the empty list of chunks. -/
theorem splitP_ne_nil (p : Char → Bool) (s : Str) : splitP p s ≠ [] := by
  induction s with
  | nil => simp [splitP]
  | cons c s ih =>
    by_cases hc : p c = true
    · rw [splitP_cons_pos p c s hc]
      simp
    · simp only [splitP, List.foldr_cons] at *
      rw [Bool.not_eq_true] at hc
      rw [hc]
      simp only [Bool.false_eq_true, if_false]
      rcases hh : (List.foldr _ [[]] s : List Str) with _ | ⟨g, gs⟩
      · exact absurd hh ih
      · simp

/-- `splitP` of a cons at a non-separator character. -/
theorem splitP_cons_neg (p : Char → Bool) (c : Char) (s : Str) (g : Str) (gs : List Str)
    (hc : p c = false) (h : splitP p s = g :: gs) :
    splitP p (c :: s) = (c :: g) :: gs := by
  simp only [splitP, List.foldr_cons] at *
  rw [hc, h]
  simp

/-- Splitting distributes over an append through a separator. -/
theorem splitP_append_mid (p : Char → Bool) (m : Char) (x y : Str) (hm : p m = true) :
    splitP p (x ++ m :: y) = splitP p x ++ splitP p y := by
  induction x with
  | nil =>
    rw [List.nil_append, splitP_cons_pos p m y hm]
    rfl
  | cons c x ih =>
    by_cases hc : p c = true
    · rw [List.cons_append, splitP_cons_pos p c _ hc, splitP_cons_pos p c _ hc, ih]
      rfl
    · rw [Bool.not_eq_true] at hc
      rcases hh : splitP p x with _ | ⟨g, gs⟩
      · exact absurd hh (splitP_ne_nil p x)
      · rw [List.cons_append,
          splitP_cons_neg p c _ g (gs ++ splitP p y) hc (by rw [ih, hh]; rfl),
          splitP_cons_neg p c _ g gs hc hh]
        rfl

/-- A string with no separator characters is a single chunk. -/
theorem splitP_no_sep (p : Char → Bool) (s : Str) (h : ∀ c ∈ s, p c = false) :
    splitP p s = [s] := by
  induction s with
  | nil => rfl
  | cons c s ih =>
    have hc : p c = false := h c (List.mem_cons_self c s)
    exact splitP_cons_neg p c s s [] hc (ih (fun x hx => h x (List.mem_cons_of_mem c hx)))

/-- Characters of the chunks never satisfy the split predicate. -/
theorem splitP_chunks_sepFree (p : Char → Bool) (s : Str) :
    ∀ g ∈ splitP p s, ∀ ch ∈ g, p ch = false := by
  induction s with
  | nil =>
    intro g hg
    simp only [splitP, List.foldr_nil, List.mem_singleton] at hg
    subst hg
    intro ch hch
    cases hch
  | cons c s ih =>
    by_cases hc : p c = true
    · rw [splitP_cons_pos p c s hc]
      intro g hg ch hch
      rcases List.mem_cons.mp hg with h1 | h2
      · subst h1; cases hch
      · exact ih g h2 ch hch
    · rw [Bool.not_eq_true] at hc
      rcases hh : splitP p s with _ | ⟨g0, gs0⟩
      · exact absurd hh (splitP_ne_nil p s)
      · rw [splitP_cons_neg p c s g0 gs0 hc hh]
        intro g hg ch hch
        rcases List.mem_cons.mp hg with h1 | h2
        · subst h1
          rcases List.mem_cons.mp hch with h3 | h4
          · subst h3; exact hc
          · exact ih g0 (hh ▸ List.mem_cons_self g0 gs0) ch h4
        · exact ih g (hh ▸ List.mem_cons_of_mem g0 h2) ch hch

/-- `joinBS` of a cons with non-empty tail. -/
theorem joinBS_cons (c : Str) (cs : List Str) (h : cs ≠ []) :
    joinBS (c :: cs) = c ++ '\\' :: joinBS cs := by
  cases cs with
  | nil => exact absurd rfl h
  | cons d ds => rfl

/-- `joinBS` distributes over append of two non-empty lists. -/
theorem joinBS_append (cs1 cs2 : List Str) (h1 : cs1 ≠ []) (h2 : cs2 ≠ []) :
    joinBS (cs1 ++ cs2) = joinBS cs1 ++ '\\' :: joinBS cs2 := by
  induction cs1 with
  | nil => exact absurd rfl h1
  | cons c cs ih =>
    cases cs with
    | nil =>
      rw [List.singleton_append, joinBS_cons c cs2 h2]
      rfl
    | cons d ds =>
      rw [List.cons_append, joinBS_cons c _ (by simp), joinBS_cons c _ (by simp),
        ih (by simp)]
      simp

/-- `joinBS` of components that are non-empty is non-empty (when there is
more than one component the separator alone suffices). -/
theorem joinBS_ne_nil (cs : List Str) (hne : cs ≠ []) (h : ∀ c ∈ cs, c ≠ []) :
    joinBS cs ≠ [] := by
  cases cs with
  | nil => exact absurd rfl hne
  | cons c cs =>
    cases cs with
    | nil => exact h c (List.mem_cons_self c [])
    | cons d ds =>
      rw [joinBS_cons c _ (by simp)]
      simp

/-- Splitting a join of sep-free non-empty components recovers them. -/
theorem splitSeps_joinBS (cs : List Str) (hne : cs ≠ [])
    (h : ∀ c ∈ cs, c ≠ [] ∧ ∀ ch ∈ c, isSep ch = false) :
    splitSeps (joinBS cs) = cs := by
  induction cs with
  | nil => exact absurd rfl hne
  | cons c cs ih =>
    cases cs with
    | nil => exact splitP_no_sep isSep c (h c (List.mem_cons_self c [])).2
    | cons d ds =>
      rw [joinBS_cons c _ (by simp)]
      unfold splitSeps
      rw [splitP_append_mid isSep '\\' c _ (by decide)]
      rw [splitP_no_sep isSep c (h c (List.mem_cons_self c _)).2]
      have := ih (by simp) (fun x hx => h x (List.mem_cons_of_mem c hx))
      unfold splitSeps at this
      rw [this]
      rfl

/-- `normStep` on a clean component appends it. -/
theorem normStep_clean (r : Bool) (acc : List Str) (c : Str)
    (h1 : c ≠ []) (h2 : c ≠ ['.']) (h3 : c ≠ ['.', '.']) :
    normStep r acc c = acc ++ [c] := by
  unfold normStep
  rw [if_neg (by simp [h1, h2]), if_neg h3]

/-- Folding `normStep` over clean components appends them all. -/
theorem foldl_normStep_clean (r : Bool) (cs : List Str)
    (h : ∀ c ∈ cs, c ≠ [] ∧ c ≠ ['.'] ∧ c ≠ ['.', '.']) :
    ∀ acc, cs.foldl (normStep r) acc = acc ++ cs := by
  induction cs with
  | nil => intro acc; simp
  | cons c cs ih =>
    intro acc
    have hc := h c (List.mem_cons_self c cs)
    rw [List.foldl_cons, normStep_clean r acc c hc.1 hc.2.1 hc.2.2,
      ih (fun x hx => h x (List.mem_cons_of_mem c hx))]
    simp

/-- `normParts` over a list ending in clean components appends them. -/
theorem normParts_append_clean (r : Bool) (cs ts : List Str)
    (h : ∀ c ∈ ts, c ≠ [] ∧ c ≠ ['.'] ∧ c ≠ ['.', '.']) :
    normParts r (cs ++ ts) = normParts r cs ++ ts := by
  unfold normParts
  rw [List.foldl_append]
  exact foldl_normStep_clean r ts h _

/-- A member of the result of one `normStep` comes from the accumulator or
is the new component. -/
theorem normStep_mem (r : Bool) (acc : List Str) (c0 c : Str)
    (h : c ∈ normStep r acc c0) : c ∈ acc ∨ c = c0 := by
  unfold normStep at h
  split at h
  · exact Or.inl h
  · split at h
    · split at h
      · split at h
        · cases h
        · exact Or.inr (List.mem_singleton.mp h)
      · split at h
        · rcases List.mem_append.mp h with h1 | h2
          · exact Or.inl h1
          · exact Or.inr (List.mem_singleton.mp h2)
        · exact Or.inl (List.dropLast_subset _ h)
    · rcases List.mem_append.mp h with h1 | h2
      · exact Or.inl h1
      · exact Or.inr (List.mem_singleton.mp h2)

/-- Members of a `normStep` fold come from the accumulator or the input. -/
theorem foldl_normStep_mem (r : Bool) (cs : List Str) :
    ∀ acc c, c ∈ cs.foldl (normStep r) acc → c ∈ acc ∨ c ∈ cs := by
  induction cs with
  | nil => intro acc c h; exact Or.inl h
  | cons c0 cs ih =>
    intro acc c h
    rw [List.foldl_cons] at h
    rcases ih _ c h with h1 | h2
    · rcases normStep_mem r acc c0 c h1 with h3 | h4
      · exact Or.inl h3
      · exact Or.inr (h4 ▸ List.mem_cons_self c0 cs)
    · exact Or.inr (List.mem_cons_of_mem c0 h2)

/-- `normParts` never keeps an empty or `.` component. -/
theorem foldl_normStep_ne (r : Bool) (cs : List Str) :
    ∀ acc, (∀ x ∈ acc, x ≠ [] ∧ x ≠ ['.']) →
      ∀ x ∈ cs.foldl (normStep r) acc, x ≠ [] ∧ x ≠ ['.'] := by
  induction cs with
  | nil => intro acc hacc x hx; exact hacc x hx
  | cons c0 cs ih =>
    intro acc hacc x hx
    rw [List.foldl_cons] at hx
    refine ih _ ?_ x hx
    intro y hy
    unfold normStep at hy
    split at hy
    · exact hacc y hy
    · next hne =>
      split at hy
      · next hdd =>
        split at hy
        · split at hy
          · cases hy
          · rw [List.mem_singleton.mp hy, hdd]
            exact ⟨by simp, by simp⟩
        · split at hy
          · rcases List.mem_append.mp hy with h1 | h2
            · exact hacc y h1
            · rw [List.mem_singleton.mp h2, hdd]
              exact ⟨by simp, by simp⟩
          · exact hacc y (List.dropLast_subset _ hy)
      · rcases List.mem_append.mp hy with h1 | h2
        · exact hacc y h1
        · rw [List.mem_singleton.mp h2]
          push_neg at hne
          exact hne

/-- The last element (with default) of a non-empty list is a member. -/
theorem getLastD_mem (l : List Str) (d : Str) (h : l ≠ []) : l.getLastD d ∈ l := by
  induction l generalizing d with
  | nil => exact absurd rfl h
  | cons a t ih =>
    cases t with
    | nil => simp [List.getLastD]
    | cons b u =>
      have := ih a (by simp)
      rw [List.getLastD_cons]
      exact List.mem_cons_of_mem a (by simpa using this)

/-- With a rooted path, `normParts` never keeps a `..` component. -/
theorem foldl_normStep_rooted_no_dotdot (cs : List Str) :
    ∀ acc, ['.', '.'] ∉ acc → ['.', '.'] ∉ cs.foldl (normStep true) acc := by
  induction cs with
  | nil => intro acc hacc; exact hacc
  | cons c0 cs ih =>
    intro acc hacc
    refine ih _ ?_
    intro hy
    unfold normStep at hy
    split at hy
    · exact hacc hy
    · split at hy
      · by_cases hz : acc = []
        · rw [if_pos hz, if_pos rfl] at hy
          cases hy
        · rw [if_neg hz] at hy
          have hlne : acc.getLastD [] ≠ ['.', '.'] := by
            intro he
            exact hacc (he ▸ getLastD_mem acc [] hz)
          rw [if_neg hlne] at hy
          exact hacc (List.dropLast_subset _ hy)
      · next hdd =>
        rcases List.mem_append.mp hy with h1 | h2
        · exact hacc h1
        · exact hdd (List.mem_singleton.mp h2).symm

/-- A non-separator character is neither slash nor backslash. -/
theorem not_sep_chars (c : Char) (h : isSep c = false) : c ≠ '/' ∧ c ≠ '\\' := by
  unfold isSep at h
  constructor <;> intro he <;> subst he <;> simp at h

/-- `toBackslash` over an append. -/
theorem toBackslash_append (x y : Str) :
    toBackslash (x ++ y) = toBackslash x ++ toBackslash y :=
  List.map_append _ x y

/-- `toBackslash` fixes separator-free strings. -/
theorem toBackslash_sepFree (s : Str) (h : ∀ ch ∈ s, isSep ch = false) :
    toBackslash s = s := by
  induction s with
  | nil => rfl
  | cons c s ih =>
    unfold toBackslash
    rw [List.map_cons]
    have hc := (not_sep_chars c (h c (List.mem_cons_self c s))).1
    rw [tbc_eq_self c hc]
    have := ih (fun x hx => h x (List.mem_cons_of_mem c hx))
    unfold toBackslash at this
    rw [this]

/-- `toBackslash` fixes a join of separator-free components. -/
theorem toBackslash_joinBS (cs : List Str) (h : ∀ c ∈ cs, ∀ ch ∈ c, isSep ch = false) :
    toBackslash (joinBS cs) = joinBS cs := by
  induction cs with
  | nil => rfl
  | cons c cs ih =>
    cases cs with
    | nil => exact toBackslash_sepFree c (h c (List.mem_cons_self c []))
    | cons d ds =>
      rw [joinBS_cons c _ (by simp), toBackslash_append]
      rw [toBackslash_sepFree c (h c (List.mem_cons_self c _))]
      unfold toBackslash
      rw [List.map_cons, tbc_bs]
      have := ih (fun x hx => h x (List.mem_cons_of_mem c hx))
      unfold toBackslash at this
      rw [this]

/-- `splitDrive` is stable under appending after a backslash, for non-empty
prefixes (the appended part cannot create a new drive). -/
theorem splitDrive_append_bs (u w : Str) (hu : u ≠ []) :
    splitDrive (u ++ '\\' :: w) = ((splitDrive u).1, (splitDrive u).2 ++ '\\' :: w) := by
  cases u with
  | nil => exact absurd rfl hu
  | cons c u' =>
    cases u' with
    | nil => simp [splitDrive]
    | cons b u'' =>
      by_cases hb : b = ':' <;> simp [splitDrive, hb]

/-- Every component `normParts` keeps is non-empty and not `.`. -/
theorem npComps_mem_ne (p : Str) : ∀ c ∈ npComps p, c ≠ [] ∧ c ≠ ['.'] := by
  intro c hc
  exact foldl_normStep_ne _ _ [] (by simp) c hc

/-- Every component `normParts` keeps is separator-free. -/
theorem npComps_sepFree (p : Str) : ∀ c ∈ npComps p, ∀ ch ∈ c, isSep ch = false := by
  intro c hc
  rcases foldl_normStep_mem _ _ [] c hc with h1 | h2
  · cases h1
  · exact splitP_chunks_sepFree isSep (pathRest p) c h2

/-- `normpath` never returns the empty string. -/
theorem normpath_ne_nil (p : Str) : normpath p ≠ [] := by
  unfold normpath
  split
  · simp
  · next hcond =>
    rcases hdp : drivePart p with _ | ⟨a, d'⟩
    · rcases hro : rootedOf p with _ | _
      · have hnp : npComps p ≠ [] := by
          intro he
          exact hcond ⟨hdp, hro, he⟩
        have := joinBS_ne_nil (npComps p) hnp (fun c hc => (npComps_mem_ne p c hc).1)
        simp [hro, this]
      · simp [hro]
    · simp

/-- Appending `\`-joined clean components after a backslash extends the
normalization component-wise (the core `normpath` append law). -/
theorem normpath_append (x : Str) (ts : List Str) (hts : ts ≠ [])
    (hclean : ∀ c ∈ ts, CleanComp c) (hnp : npComps x ≠ []) :
    normpath (x ++ '\\' :: joinBS ts) = normpath x ++ '\\' :: joinBS ts ∧
    npComps (x ++ '\\' :: joinBS ts) = npComps x ++ ts ∧
    drivePart (x ++ '\\' :: joinBS ts) = drivePart x ∧
    rootedOf (x ++ '\\' :: joinBS ts) = rootedOf x := by
  have hts_sf : ∀ c ∈ ts, ∀ ch ∈ c, isSep ch = false := fun c hc => (hclean c hc).2.2.2
  have hts_ne : ∀ c ∈ ts, c ≠ [] := fun c hc => (hclean c hc).1
  have hx0 : x ≠ [] := by
    intro he
    subst he
    exact hnp (by decide)
  have htbne : toBackslash x ≠ [] := by
    intro he
    exact hx0 (by simpa [toBackslash] using he)
  have htb : toBackslash (x ++ '\\' :: joinBS ts) = toBackslash x ++ '\\' :: joinBS ts := by
    rw [toBackslash_append]
    unfold toBackslash
    rw [List.map_cons, tbc_bs]
    have := toBackslash_joinBS ts hts_sf
    unfold toBackslash at this
    rw [this]
  have hsd := splitDrive_append_bs (toBackslash x) (joinBS ts) htbne
  have hdp : drivePart (x ++ '\\' :: joinBS ts) = drivePart x := by
    unfold drivePart
    rw [htb, hsd]
  have hpr : pathRest (x ++ '\\' :: joinBS ts) = pathRest x ++ '\\' :: joinBS ts := by
    unfold pathRest
    rw [htb, hsd]
  have hprne : pathRest x ≠ [] := by
    intro he
    apply hnp
    unfold npComps
    rw [he]
    rfl
  have hex : ∃ c r, pathRest x = c :: r := by
    cases hq : pathRest x with
    | nil => exact absurd hq hprne
    | cons c r => exact ⟨c, r, rfl⟩
  obtain ⟨c0, r0, hpp⟩ := hex
  have hro : rootedOf (x ++ '\\' :: joinBS ts) = rootedOf x := by
    unfold rootedOf
    rw [hpr, hpp]
    rfl
  have hss : splitSeps (pathRest x ++ '\\' :: joinBS ts) =
      splitSeps (pathRest x) ++ splitSeps (joinBS ts) := by
    unfold splitSeps
    exact splitP_append_mid isSep '\\' _ _ (by decide)
  have hssj : splitSeps (joinBS ts) = ts :=
    splitSeps_joinBS ts hts (fun c hc => ⟨hts_ne c hc, hts_sf c hc⟩)
  have hnc : npComps (x ++ '\\' :: joinBS ts) = npComps x ++ ts := by
    unfold npComps
    rw [hpr, hro, hss, hssj]
    exact normParts_append_clean _ _ ts
      (fun c hc => ⟨(hclean c hc).1, (hclean c hc).2.1, (hclean c hc).2.2.1⟩)
  refine ⟨?_, hnc, hdp, hro⟩
  have hnx : normpath x =
      drivePart x ++ (if rootedOf x = true then ['\\'] else []) ++ joinBS (npComps x) := by
    unfold normpath
    rw [if_neg (fun hc => hnp hc.2.2)]
  have hnx2 : normpath (x ++ '\\' :: joinBS ts) =
      drivePart x ++ (if rootedOf x = true then ['\\'] else []) ++ joinBS (npComps x ++ ts) := by
    unfold normpath
    rw [hnc, hdp, hro]
    rw [if_neg (fun hc => hts (List.append_eq_nil.mp hc.2.2).2)]
  rw [hnx, hnx2, joinBS_append (npComps x) ts hnp hts]
  simp [List.append_assoc]

/-- `relDrive` and `relComps` under the append law. -/
theorem relExt (x : Str) (ts : List Str) (hts : ts ≠ [])
    (hclean : ∀ c ∈ ts, CleanComp c) (hnp : npComps x ≠ []) :
    relDrive (x ++ '\\' :: joinBS ts) = relDrive x ∧
    relComps (x ++ '\\' :: joinBS ts) = relComps x ++ ts := by
  obtain ⟨hnorm, -, -, -⟩ := normpath_append x ts hts hclean hnp
  have hsd := splitDrive_append_bs (normpath x) (joinBS ts) (normpath_ne_nil x)
  constructor
  · unfold relDrive
    rw [hnorm, hsd]
  · unfold relComps
    rw [hnorm, hsd]
    have hss : splitSeps ((splitDrive (normpath x)).2 ++ '\\' :: joinBS ts) =
        splitSeps (splitDrive (normpath x)).2 ++ splitSeps (joinBS ts) := by
      unfold splitSeps
      exact splitP_append_mid isSep '\\' _ _ (by decide)
    rw [hss, splitSeps_joinBS ts hts
      (fun c hc => ⟨(hclean c hc).1, (hclean c hc).2.2.2⟩)]
    rw [List.filter_append]
    congr 1
    exact List.filter_eq_self.mpr (fun c hc => by
      simpa using (hclean c hc).1)

/-- `commonLen` against the empty list. -/
theorem commonLen_nil_right (a : List Str) : commonLen a [] = 0 := by
  cases a <;> rfl

/-- `commonLen` unfolding on two conses. -/
theorem commonLen_cons_cons (x y : Str) (xs ys : List Str) :
    commonLen (x :: xs) (y :: ys) = if x = y then commonLen xs ys + 1 else 0 := rfl

/-- The common prefix length is bounded by the first list's length. -/
theorem commonLen_le (a b : List Str) : commonLen a b ≤ a.length := by
  induction a generalizing b with
  | nil => cases b <;> simp [commonLen]
  | cons x xs ih =>
    cases b with
    | nil => rw [commonLen_nil_right]; simp
    | cons y ys =>
      rw [commonLen_cons_cons]
      split
      · have := ih ys
        simpa using Nat.succ_le_succ this
      · simp

/-- A full-length common prefix extends along an append on the right. -/
theorem commonLen_extend (a b e : List Str) (h : commonLen a b = a.length) :
    commonLen a (b ++ e) = a.length := by
  induction a generalizing b with
  | nil =>
    cases b with
    | nil => cases e with
      | nil => rfl
      | cons f fs => rfl
    | cons y ys => rfl
  | cons x xs ih =>
    cases b with
    | nil => rw [commonLen_nil_right] at h; simp at h
    | cons y ys =>
      rw [commonLen_cons_cons] at h
      rw [List.cons_append, commonLen_cons_cons]
      by_cases hxy : x = y
      · rw [if_pos hxy] at h ⊢
        simp only [List.length_cons] at h ⊢
        rw [ih ys (by omega)]
      · rw [if_neg hxy] at h
        simp at h

/-- The head of a joined non-empty component determines the dot test. -/
theorem startsWithDot_joinBS_cons (g : Str) (gs : List Str) (hg : g ≠ []) :
    startsWithDot (joinBS (g :: gs)) = startsWithDot g := by
  cases g with
  | nil => exact absurd rfl hg
  | cons ch g' =>
    cases gs with
    | nil => rfl
    | cons d ds =>
      rw [joinBS_cons _ _ (by simp)]
      rfl

/-- `is_file_into_dir` when the relative path computation succeeds. -/
theorem ifid_some (x td r : Str) (h : relpath x td = some r) :
    is_file_into_dir x td = !(startsWithDot r) := by
  unfold is_file_into_dir
  rw [h]

/-- Members of `relComps` are non-empty. -/
theorem relComps_mem_ne (p : Str) : ∀ c ∈ relComps p, c ≠ [] := by
  intro c hc
  have := (List.mem_filter.mp hc).2
  simpa using this

/-- What a successful containment check tells us: equal drives (under
case folding), the root's components a full common prefix, strictly more
components on the candidate, and a dot-free next component. -/
theorem ifid_extract (x td : Str) (h : is_file_into_dir x td = true) :
    lowerStr (relDrive td) = lowerStr (relDrive x) ∧
    commonLen ((relComps td).map lowerStr) ((relComps x).map lowerStr) =
      (relComps td).length ∧
    (relComps td).length < (relComps x).length ∧
    startsWithDot (((relComps x).drop (relComps td).length).headI) = false := by
  rcases hrel : relpath x td with _ | r
  · exfalso
    have hf : is_file_into_dir x td = false := by
      unfold is_file_into_dir
      rw [hrel]
    rw [hf] at h
    cases h
  · have hb : (!startsWithDot r) = true := by
      rw [ifid_some x td r hrel] at h
      exact h
    unfold relpath at hrel
    by_cases hd : lowerStr (relDrive td) ≠ lowerStr (relDrive x)
    · rw [if_pos hd] at hrel
      cases hrel
    · rw [if_neg hd] at hrel
      push_neg at hd
      have hr := Option.some.inj hrel
      have hile : commonLen ((relComps td).map lowerStr) ((relComps x).map lowerStr) ≤
          (relComps td).length := by
        have := commonLen_le ((relComps td).map lowerStr) ((relComps x).map lowerStr)
        rwa [List.length_map] at this
      by_cases hk : (relComps td).length -
          commonLen ((relComps td).map lowerStr) ((relComps x).map lowerStr) = 0
      · have hie : commonLen ((relComps td).map lowerStr) ((relComps x).map lowerStr) =
            (relComps td).length := by omega
        rcases hdd : (relComps x).drop (relComps td).length with _ | ⟨g, gs⟩
        · exfalso
          have hsuf : relSuffix x td = [] := by
            unfold relSuffix
            rw [hie, Nat.sub_self, List.replicate_zero, List.nil_append, hdd]
          rw [hsuf, if_pos rfl] at hr
          rw [← hr] at hb
          simp [startsWithDot] at hb
        · have hsuf : relSuffix x td = g :: gs := by
            unfold relSuffix
            rw [hie, Nat.sub_self, List.replicate_zero, List.nil_append, hdd]
          have hgne : g ≠ [] :=
            relComps_mem_ne x g (List.mem_of_mem_drop (hdd ▸ List.mem_cons_self g gs))
          have hlen : (relComps td).length < (relComps x).length := by
            by_contra hle
            push_neg at hle
            rw [List.drop_eq_nil_iff.mpr hle] at hdd
            cases hdd
          rw [hsuf, if_neg (by simp)] at hr
          rw [← hr, startsWithDot_joinBS_cons g gs hgne] at hb
          refine ⟨hd, hie, hlen, ?_⟩
          simpa using hb
      · exfalso
        obtain ⟨n, hn⟩ := Nat.exists_eq_succ_of_ne_zero hk
        have hsuf : relSuffix x td = ['.', '.'] ::
            (List.replicate n ['.', '.'] ++
              (relComps x).drop
                (commonLen ((relComps td).map lowerStr) ((relComps x).map lowerStr))) := by
          unfold relSuffix
          rw [hn, List.replicate_succ]
          rfl
        rw [hsuf, if_neg (by simp)] at hr
        rw [← hr, startsWithDot_joinBS_cons _ _ (by simp)] at hb
        simp [startsWithDot] at hb

/-- A successful containment check extends along appended clean
components: if `x` is inside `td` then so is `x ++ '\' ++ <clean tail>`. -/
theorem ifid_extend (x td : Str) (ts : List Str) (hts : ts ≠ [])
    (hclean : ∀ c ∈ ts, CleanComp c) (hx : is_file_into_dir x td = true)
    (hnp : npComps x ≠ []) :
    is_file_into_dir (x ++ '\\' :: joinBS ts) td = true := by
  obtain ⟨hd, hi, hlen, hdot⟩ := ifid_extract x td hx
  obtain ⟨hdr, hcm⟩ := relExt x ts hts hclean hnp
  rcases hdd : (relComps x).drop (relComps td).length with _ | ⟨g, gs⟩
  · exfalso
    have := List.drop_eq_nil_iff.mp hdd
    omega
  · have hgne : g ≠ [] :=
      relComps_mem_ne x g (List.mem_of_mem_drop (hdd ▸ List.mem_cons_self g gs))
    have hi' : commonLen ((relComps td).map lowerStr)
        ((relComps (x ++ '\\' :: joinBS ts)).map lowerStr) = (relComps td).length := by
      rw [hcm, List.map_append]
      have := commonLen_extend ((relComps td).map lowerStr) ((relComps x).map lowerStr)
        (ts.map lowerStr) (by rw [hi, List.length_map])
      rw [this, List.length_map]
    have hsuf : relSuffix (x ++ '\\' :: joinBS ts) td = (g :: gs) ++ ts := by
      unfold relSuffix
      rw [hi', Nat.sub_self, List.replicate_zero, List.nil_append, hcm,
        List.drop_append_of_le_length (Nat.le_of_lt hlen), hdd]
    have hrel' : relpath (x ++ '\\' :: joinBS ts) td = some (joinBS ((g :: gs) ++ ts)) := by
      unfold relpath
      rw [if_neg (by rw [hdr]; push_neg; exact hd)]
      rw [hsuf, if_neg (by simp)]
    rw [ifid_some _ _ _ hrel', List.cons_append,
      startsWithDot_joinBS_cons g (gs ++ ts) hgne]
    rw [hdd] at hdot
    simpa using hdot

/-- Case-folding a non-separator character never yields a separator. -/
theorem toLower_not_sep (c : Char) (h : isSep c = false) :
    isSep (Char.toLower c) = false := by
  unfold isSep at h ⊢
  by_contra hc
  rw [Bool.not_eq_false, Bool.or_eq_true, decide_eq_true_eq, decide_eq_true_eq] at hc
  simp only [Char.toLower] at hc
  by_cases hn : c.toNat ≥ 65 ∧ c.toNat ≤ 90
  · rw [if_pos hn] at hc
    obtain ⟨h1, h2⟩ := hn
    interval_cases hnn : c.toNat <;> revert hc <;> decide
  · rw [if_neg hn] at hc
    rcases hc with h1 | h2
    · subst h1
      simp at h
    · subst h2
      simp at h

/-- A separator character is fixed by case folding. -/
theorem toLower_sep_fixed (c : Char) (h : isSep c = true) : Char.toLower c = c := by
  unfold isSep at h
  rw [Bool.or_eq_true, decide_eq_true_eq, decide_eq_true_eq] at h
  rcases h with h | h <;> subst h <;> decide

/-- The drive returned by `splitDrive` is empty or a two-character drive. -/
theorem splitDrive_shape (p : Str) :
    (splitDrive p).1 = [] ∨ ∃ a, (splitDrive p).1 = [a, ':'] := by
  rcases p with _ | ⟨a, _ | ⟨b, rest⟩⟩
  · exact Or.inl rfl
  · exact Or.inl rfl
  · by_cases hb : b = ':'
    · subst hb
      exact Or.inr ⟨a, by simp [splitDrive]⟩
    · exact Or.inl (by simp [splitDrive, hb])

/-- A successful containment check forces a non-trivial normalized
component list on the candidate. -/
theorem ifid_npComps_ne (x td : Str) (h : is_file_into_dir x td = true) :
    npComps x ≠ [] := by
  intro hnp
  obtain ⟨hd, hi, hlen, hdot⟩ := ifid_extract x td h
  rcases splitDrive_shape (toBackslash x) with hdp | ⟨a, hdp⟩
  · by_cases hro : rootedOf x = true
    · have hnx : normpath x = ['\\'] := by
        unfold normpath
        rw [if_neg (by rintro ⟨-, hr2, -⟩; rw [hro] at hr2; cases hr2)]
        unfold drivePart
        rw [hdp, hro, hnp]
        rfl
      have hrc : relComps x = [] := by
        unfold relComps
        rw [hnx]
        decide
      rw [hrc] at hlen
      simp at hlen
    · rw [Bool.not_eq_true] at hro
      have hnx : normpath x = ['.'] := by
        unfold normpath
        unfold drivePart
        rw [if_pos ⟨hdp, hro, hnp⟩]
      have hrc : relComps x = [['.']] := by
        unfold relComps
        rw [hnx]
        decide
      rw [hrc] at hlen hdot
      have hl0 : relComps td = [] := by simpa using hlen
      rw [hl0] at hdot
      simp [startsWithDot] at hdot
  · by_cases hro : rootedOf x = true
    · have hnx : normpath x = [a, ':', '\\'] := by
        unfold normpath
        rw [if_neg (by rintro ⟨-, hr2, -⟩; rw [hro] at hr2; cases hr2)]
        unfold drivePart
        rw [hdp, hro, hnp]
        rfl
      have hrc : relComps x = [] := by
        unfold relComps
        rw [hnx]
        simp [splitDrive]
        decide
      rw [hrc] at hlen
      simp at hlen
    · rw [Bool.not_eq_true] at hro
      have hnx : normpath x = [a, ':'] := by
        unfold normpath
        rw [if_neg (by rintro ⟨hd2, -, -⟩; unfold drivePart at hd2; rw [hdp] at hd2; cases hd2)]
        unfold drivePart
        rw [hdp, hro, hnp]
        rfl
      have hrc : relComps x = [] := by
        unfold relComps
        rw [hnx]
        simp [splitDrive]
        decide
      rw [hrc] at hlen
      simp at hlen

/-- Splitting a separator-prefixed concatenation: either the separators
align or the left part swallows the first separator. -/
theorem append_sep_split (c : Str) (hc : ∀ ch ∈ c, isSep ch = false) (J v u : Str)
    (he : c ++ '\\' :: J = v ++ '\\' :: u) :
    (v = c ∧ J = u) ∨ ∃ v2, v = c ++ '\\' :: v2 ∧ J = v2 ++ '\\' :: u := by
  induction c generalizing v with
  | nil =>
    cases v with
    | nil =>
      left
      exact ⟨rfl, (List.cons.inj he).2⟩
    | cons x v2 =>
      right
      rw [List.nil_append] at he
      obtain ⟨hx, hrest⟩ := List.cons.inj he
      exact ⟨v2, by rw [← hx]; rfl, hrest⟩
  | cons ch c' ih =>
    cases v with
    | nil =>
      exfalso
      rw [List.nil_append, List.cons_append] at he
      obtain ⟨hx, -⟩ := List.cons.inj he
      have := hc ch (List.mem_cons_self ch c')
      rw [hx] at this
      simp [isSep] at this
    | cons x v2 =>
      rw [List.cons_append, List.cons_append] at he
      obtain ⟨hx, hrest⟩ := List.cons.inj he
      rcases ih (fun y hy => hc y (List.mem_cons_of_mem ch hy)) v2 hrest with ⟨h1, h2⟩ | ⟨v3, h1, h2⟩
      · left
        rw [hx, h1]
        exact ⟨rfl, h2⟩
      · right
        refine ⟨v3, ?_, h2⟩
        rw [hx, h1]
        rfl

/-- Decomposing a backslash-join at an interior backslash yields a split
of the component list. -/
theorem joinBS_decomp (qc : List Str)
    (hcl : ∀ c ∈ qc, c ≠ [] ∧ ∀ ch ∈ c, isSep ch = false) (v u : Str)
    (he : joinBS qc = v ++ '\\' :: u) :
    ∃ cs1 cs2, qc = cs1 ++ cs2 ∧ cs1 ≠ [] ∧ cs2 ≠ [] ∧
      v = joinBS cs1 ∧ u = joinBS cs2 := by
  induction qc generalizing v with
  | nil =>
    exfalso
    have := congrArg List.length he
    simp [joinBS] at this
    omega
  | cons c rest ih =>
    cases rest with
    | nil =>
      exfalso
      have hsep : '\\' ∈ c := by
        have : '\\' ∈ joinBS [c] := by
          rw [he]
          exact List.mem_append.mpr (Or.inr (List.mem_cons_self _ _))
        simpa using this
      have := (hcl c (List.mem_cons_self c [])).2 '\\' hsep
      simp [isSep] at this
    | cons d ds =>
      rw [joinBS_cons c (d :: ds) (by simp)] at he
      rcases append_sep_split c ((hcl c (List.mem_cons_self c _)).2) _ v u he with
        ⟨h1, h2⟩ | ⟨v3, h1, h2⟩
      · exact ⟨[c], d :: ds, rfl, by simp, by simp, by rw [h1]; rfl, h2.symm⟩
      · obtain ⟨cs1, cs2, hq, hc1, hc2, hv3, hu⟩ :=
          ih (fun y hy => hcl y (List.mem_cons_of_mem c hy)) v3 h2
        refine ⟨c :: cs1, cs2, by rw [List.cons_append, ← hq], by simp, hc2, ?_, hu⟩
        rw [h1, hv3, joinBS_cons c cs1 hc1]

/-- Destructuring a well-formed absolute path. -/
theorem wfAbs_dest (q : Str) (hq : WfAbs q) :
    ∃ a qc, q = a :: ':' :: '\\' :: joinBS qc ∧ isSep a = false ∧
      ∀ c ∈ qc, CleanComp c := by
  unfold WfAbs wfAbsB at hq
  split at hq
  · next a rest =>
    rw [Bool.and_eq_true] at hq
    obtain ⟨ha, hrest⟩ := hq
    rw [Bool.or_eq_true] at hrest
    rcases hrest with hz | hjj
    · refine ⟨a, [], ?_, by simpa using ha, by simp⟩
      rw [show rest = [] by simpa using hz]
      rfl
    · rw [Bool.and_eq_true] at hjj
      obtain ⟨hj, hall⟩ := hjj
      refine ⟨a, splitSeps rest, ?_, by simpa using ha, ?_⟩
      · rw [← (by simpa using hj : rest = joinBS (splitSeps rest))]
      · intro c hc
        have := List.all_eq_true.mp hall c hc
        simpa using this
  · cases hq

/-- A well-formed absolute path that extends `s ++ '\'` continues with a
join of clean components, provided `s` is not a bare drive. -/
theorem wf_prefix_decomp (q s : Str) (hq : WfAbs q)
    (hpre : (s ++ ['\\']).isPrefixOf q = true)
    (hs2 : ¬ ∃ b, s = [b, ':']) :
    ∃ ts, ts ≠ [] ∧ (∀ c ∈ ts, CleanComp c) ∧ q = s ++ '\\' :: joinBS ts := by
  obtain ⟨a, qc, hqe, hna, hclean⟩ := wfAbs_dest q hq
  rcases List.isPrefixOf_iff_prefix.mp hpre with ⟨u, hu⟩
  have hque : q = s ++ '\\' :: u := by
    rw [← hu]
    simp
  rcases s with _ | ⟨c1, s1⟩
  · exfalso
    rw [hque, List.nil_append] at hqe
    obtain ⟨h1, -⟩ := List.cons.inj hqe
    rw [← h1] at hna
    simp [isSep] at hna
  rcases s1 with _ | ⟨c2, s2⟩
  · exfalso
    rw [hque] at hqe
    obtain ⟨-, h2⟩ := List.cons.inj hqe
    obtain ⟨h3, -⟩ := List.cons.inj h2
    cases h3
  rcases s2 with _ | ⟨c3, s3⟩
  · exfalso
    rw [hque] at hqe
    obtain ⟨h1, h2⟩ := List.cons.inj hqe
    obtain ⟨h3, -⟩ := List.cons.inj h2
    exact hs2 ⟨c1, by rw [h3]⟩
  · rw [hque] at hqe
    obtain ⟨h1, h2⟩ := List.cons.inj hqe
    obtain ⟨h3, h4⟩ := List.cons.inj h2
    obtain ⟨h5, h6⟩ := List.cons.inj h4
    have h6' : s3 ++ '\\' :: u = joinBS qc := h6
    obtain ⟨cs1, cs2, hqc, hc1, hc2, hv, hu2⟩ :=
      joinBS_decomp qc
        (fun c hc => ⟨(hclean c hc).1, (hclean c hc).2.2.2⟩) s3 u h6'.symm
    exact ⟨cs2, hc2, fun c hc => hclean c (hqc ▸ List.mem_append.mpr (Or.inr hc)),
      by rw [hque, hu2]⟩

/-- Building a well-formed absolute path from its parts. -/
theorem wfAbs_intro (a : Char) (cs : List Str) (ha : isSep a = false)
    (hcl : ∀ c ∈ cs, CleanComp c) : WfAbs (a :: ':' :: '\\' :: joinBS cs) := by
  show wfAbsB _ = true
  rw [show wfAbsB (a :: ':' :: '\\' :: joinBS cs) =
      (!(isSep a) && (decide (joinBS cs = []) ||
        (decide (joinBS cs = joinBS (splitSeps (joinBS cs))) &&
          (splitSeps (joinBS cs)).all fun c => decide (CleanComp c)))) from rfl]
  rw [ha]
  cases hcs : cs with
  | nil => simp [joinBS]
  | cons c cs' =>
    have hsj : splitSeps (joinBS cs) = cs :=
      splitSeps_joinBS cs (by rw [hcs]; simp)
        (fun c hc => ⟨(hcl c hc).1, (hcl c hc).2.2.2⟩)
    rw [← hcs, hsj]
    simp only [Bool.not_false, Bool.true_and, decide_True, Bool.true_and, Bool.or_eq_true,
      List.all_eq_true]
    right
    intro c hc
    simpa using hcl c hc

/-- The separator-replacement pass fixes a well-formed absolute path. -/
theorem toBackslash_wfAbs (a : Char) (qc : List Str) (hna : isSep a = false)
    (hclean : ∀ c ∈ qc, CleanComp c) :
    toBackslash (a :: ':' :: '\\' :: joinBS qc) = a :: ':' :: '\\' :: joinBS qc := by
  unfold toBackslash
  rw [List.map_cons, List.map_cons, List.map_cons]
  rw [tbc_eq_self a (not_sep_chars a hna).1, tbc_colon, tbc_bs]
  have := toBackslash_joinBS qc (fun c hc => (hclean c hc).2.2.2)
  unfold toBackslash at this
  rw [this]

/-- `normpath` fixes well-formed absolute paths, and their `normpath`
components are exactly their components. -/
theorem normpath_wfAbs (a : Char) (qc : List Str) (hna : isSep a = false)
    (hclean : ∀ c ∈ qc, CleanComp c) :
    normpath (a :: ':' :: '\\' :: joinBS qc) = a :: ':' :: '\\' :: joinBS qc ∧
    npComps (a :: ':' :: '\\' :: joinBS qc) = qc := by
  have htb := toBackslash_wfAbs a qc hna hclean
  have hdp : drivePart (a :: ':' :: '\\' :: joinBS qc) = [a, ':'] := by
    unfold drivePart
    rw [htb]
    simp [splitDrive]
  have hpr : pathRest (a :: ':' :: '\\' :: joinBS qc) = '\\' :: joinBS qc := by
    unfold pathRest
    rw [htb]
    simp [splitDrive]
  have hro : rootedOf (a :: ':' :: '\\' :: joinBS qc) = true := by
    unfold rootedOf
    rw [hpr]
    rfl
  have hnc : npComps (a :: ':' :: '\\' :: joinBS qc) = qc := by
    unfold npComps
    rw [hpr, hro]
    rw [show splitSeps ('\\' :: joinBS qc) = [] :: splitSeps (joinBS qc) from
      splitP_cons_pos isSep '\\' _ (by decide)]
    cases hqc : qc with
    | nil => decide
    | cons c cs =>
      rw [← hqc, splitSeps_joinBS qc (by rw [hqc]; simp)
        (fun c hc => ⟨(hclean c hc).1, (hclean c hc).2.2.2⟩)]
      unfold normParts
      rw [List.foldl_cons]
      rw [show normStep true [] [] = [] from rfl]
      exact foldl_normStep_clean true qc
        (fun c hc => ⟨(hclean c hc).1, (hclean c hc).2.1, (hclean c hc).2.2.1⟩) []
  refine ⟨?_, hnc⟩
  unfold normpath
  rw [if_neg (by rintro ⟨h1, -, -⟩; rw [hdp] at h1; cases h1)]
  rw [hdp, hro, hnc]
  rfl

/-- `relDrive` and `relComps` of a well-formed absolute path. -/
theorem rel_wfAbs (a : Char) (qc : List Str) (hna : isSep a = false)
    (hclean : ∀ c ∈ qc, CleanComp c) :
    relDrive (a :: ':' :: '\\' :: joinBS qc) = [a, ':'] ∧
    relComps (a :: ':' :: '\\' :: joinBS qc) = qc := by
  obtain ⟨hn, -⟩ := normpath_wfAbs a qc hna hclean
  have hsd : splitDrive (a :: ':' :: '\\' :: joinBS qc) = ([a, ':'], '\\' :: joinBS qc) := by
    simp [splitDrive]
  constructor
  · unfold relDrive
    rw [hn, hsd]
  · unfold relComps
    rw [hn, hsd]
    rw [show splitSeps ('\\' :: joinBS qc) = [] :: splitSeps (joinBS qc) from
      splitP_cons_pos isSep '\\' _ (by decide)]
    cases hqc : qc with
    | nil => decide
    | cons c cs =>
      rw [← hqc, splitSeps_joinBS qc (by rw [hqc]; simp)
        (fun c hc => ⟨(hclean c hc).1, (hclean c hc).2.2.2⟩)]
      rw [List.filter_cons]
      simp only [decide_True, ne_eq, not_true_eq_false, decide_False, Bool.false_eq_true,
        if_false]
      exact List.filter_eq_self.mpr (fun c hc => by simpa using (hclean c hc).1)

/-- A path whose (post-replacement) drive is `[b, ':']` keeps that drive
through `normpath`. -/
theorem relDrive_of_drive (p : Str) (b : Char) (h : drivePart p = [b, ':']) :
    relDrive p = [b, ':'] := by
  have hnx : normpath p =
      [b, ':'] ++ (if rootedOf p = true then ['\\'] else []) ++ joinBS (npComps p) := by
    unfold normpath
    rw [if_neg (by rintro ⟨h1, -, -⟩; rw [h] at h1; cases h1), h]
  unfold relDrive
  rw [hnx]
  by_cases hro : rootedOf p = true
  · rw [if_pos hro]
    simp [splitDrive]
  · rw [if_neg hro]
    simp [splitDrive]

theorem isSep_tbc (c : Char) : isSep (tbc c) = isSep c := by
  by_cases hc : c = '/'
  · subst hc
    rfl
  · rw [tbc_eq_self c hc]

/-- Two-character drives survive the separator replacement. -/
theorem drive2_parts (y : Char) (z : Str) :
    drivePart (y :: ':' :: z) = [tbc y, ':'] ∧ pathRest (y :: ':' :: z) = toBackslash z := by
  unfold drivePart pathRest toBackslash
  rw [List.map_cons, List.map_cons, tbc_colon]
  constructor <;> simp [splitDrive]

/-- Rootedness of a two-character-drive path is its third character. -/
theorem rooted_drive2 (y : Char) (c : Char) (zs : Str) :
    rootedOf (y :: ':' :: c :: zs) = isSep c := by
  unfold rootedOf
  rw [(drive2_parts y (c :: zs)).2]
  show isSep (tbc c) = isSep c
  exact isSep_tbc c

/-- A drive whose letter is a separator can never pass the containment
check against a well-formed root. -/
theorem drive_mismatch_contra (td dst : Str) (a z : Char)
    (hreltd : relDrive td = [a, ':']) (hna : isSep a = false)
    (hdp : drivePart dst = [z, ':']) (hsep : isSep z = true)
    (hg : is_file_into_dir dst td = true) : False := by
  have hrd := relDrive_of_drive dst z hdp
  have hd := (ifid_extract dst td hg).1
  rw [hreltd, hrd] at hd
  have heq : Char.toLower a = Char.toLower z := by
    simpa [lowerStr] using hd
  rw [toLower_sep_fixed z hsep] at heq
  have hns := toLower_not_sep a hna
  rw [heq] at hns
  rw [hns] at hsep
  cases hsep

/-- The else-branch of `ntjoinRel`, spelled out. -/
theorem ntjoinRel_else_eq (rd rp bd bp : Str)
    (h : ¬(bd ≠ [] ∧ bd ≠ rd ∧ lowerStr bd ≠ lowerStr rd)) :
    ntjoinRel rd rp bd bp =
      (if bd ≠ [] then bd else rd) ++ rp ++
        (if rp ≠ [] ∧ isSep (rp.getLastD ' ') = false then ['\\'] else []) ++ bp := by
  unfold ntjoinRel
  rw [if_neg h]

/-- A drive-rooted destination that passes containment has a well-formed
non-separator drive letter. -/
theorem drive_root_shape_ok (td : Str) (a x c : Char) (rest : Str)
    (hreltd : relDrive td = [a, ':']) (hna : isSep a = false) (hc : isSep c = true)
    (hg : is_file_into_dir (x :: ':' :: c :: rest) td = true) :
    ∃ b, drivePart (x :: ':' :: c :: rest) = [b, ':'] ∧ isSep b = false ∧
      rootedOf (x :: ':' :: c :: rest) = true := by
  have hdp := (drive2_parts x (c :: rest)).1
  have hro : rootedOf (x :: ':' :: c :: rest) = true := by
    rw [rooted_drive2, hc]
  by_cases hsx : isSep (tbc x) = true
  · exact absurd (drive_mismatch_contra td _ a (tbc x) hreltd hna hdp hsx hg) id
  · rw [Bool.not_eq_true] at hsx
    exact ⟨tbc x, hdp, hsx, hro⟩

/-- The `ntjoinRel` case when the joined name carries its own drive: the
result either keeps a well-formed drive-rooted shape or fails containment. -/
theorem dst_rel_case (td name : Str) (a : Char) (comps : List Str) (x : Char) (bp : Str)
    (hreltd : relDrive td = [a, ':']) (hna : isSep a = false)
    (_hsdtd : splitDrive td = ([a, ':'], '\\' :: joinBS comps))
    (hg : is_file_into_dir (ntjoin td name) td = true)
    (hdst : ntjoin td name = ntjoinRel [a, ':'] ('\\' :: joinBS comps) [x, ':'] bp) :
    ∃ b, drivePart (ntjoin td name) = [b, ':'] ∧ isSep b = false ∧
      rootedOf (ntjoin td name) = true := by
  by_cases hB1 : ([x, ':'] : Str) ≠ [] ∧ ([x, ':'] : Str) ≠ [a, ':'] ∧
      lowerStr [x, ':'] ≠ lowerStr [a, ':']
  · exfalso
    have hdst2 : ntjoin td name = x :: ':' :: bp := by
      rw [hdst]
      unfold ntjoinRel
      rw [if_pos hB1]
      rfl
    rw [hdst2] at hg
    have hdp := (drive2_parts x bp).1
    by_cases hsx : isSep (tbc x) = true
    · exact drive_mismatch_contra td _ a (tbc x) hreltd hna hdp hsx hg
    · rw [Bool.not_eq_true] at hsx
      have hsxx : isSep x = false := by
        rw [← isSep_tbc]
        exact hsx
      rw [tbc_eq_self x (not_sep_chars x hsxx).1] at hdp
      have hrd := relDrive_of_drive _ x hdp
      have hd := (ifid_extract _ td hg).1
      rw [hreltd, hrd] at hd
      exact hB1.2.2 hd.symm
  · have hdst2 : ntjoin td name = x :: ':' :: '\\' ::
        ((joinBS comps ++
          (if ('\\' :: joinBS comps) ≠ [] ∧
              isSep (('\\' :: joinBS comps).getLastD ' ') = false
            then ['\\'] else [])) ++ bp) := by
      rw [hdst, ntjoinRel_else_eq _ _ _ _ hB1]
      rw [if_pos (by simp : ([x, ':'] : Str) ≠ [])]
      simp [List.append_assoc]
    rw [hdst2] at hg ⊢
    exact drive_root_shape_ok td a x '\\' _ hreltd hna (by decide) hg

/-- The `ntjoinRel` case when the joined name carries no drive: the root's
drive and rooted path prefix the result. -/
theorem dst_rel_case_nodrive (td name : Str) (a : Char) (comps : List Str) (bp : Str)
    (hreltd : relDrive td = [a, ':']) (hna : isSep a = false)
    (hg : is_file_into_dir (ntjoin td name) td = true)
    (hdst : ntjoin td name = ntjoinRel [a, ':'] ('\\' :: joinBS comps) [] bp) :
    ∃ b, drivePart (ntjoin td name) = [b, ':'] ∧ isSep b = false ∧
      rootedOf (ntjoin td name) = true := by
  have hdst2 : ntjoin td name = a :: ':' :: '\\' ::
      ((joinBS comps ++
        (if ('\\' :: joinBS comps) ≠ [] ∧
            isSep (('\\' :: joinBS comps).getLastD ' ') = false
          then ['\\'] else [])) ++ bp) := by
    rw [hdst, ntjoinRel_else_eq _ _ _ _ (by simp)]
    rw [if_neg (by simp)]
    simp [List.append_assoc]
  rw [hdst2] at hg ⊢
  exact drive_root_shape_ok td a a '\\' _ hreltd hna (by decide) hg

/-- Every destination the loop accepts (joined onto a well-formed root and
passing the containment check) has a non-separator two-character drive and
a rooted path. -/
theorem dst_drive_rooted (td name : Str) (a : Char) (comps : List Str)
    (htd : td = a :: ':' :: '\\' :: joinBS comps) (hna : isSep a = false)
    (hcl : ∀ c ∈ comps, CleanComp c)
    (hg : is_file_into_dir (ntjoin td name) td = true) :
    ∃ b, drivePart (ntjoin td name) = [b, ':'] ∧ isSep b = false ∧
      rootedOf (ntjoin td name) = true := by
  have hreltd : relDrive td = [a, ':'] := by
    rw [htd]
    exact (rel_wfAbs a comps hna hcl).1
  have hsdtd : splitDrive td = ([a, ':'], '\\' :: joinBS comps) := by
    rw [htd]
    simp [splitDrive]
  have hna' : ¬ (a = '/') := (not_sep_chars a hna).1
  rcases hbd : (splitDrive name).1 with _ | ⟨x, xs⟩
  case cons =>
    -- the drive returned by splitDrive is [x, ':']
    rcases splitDrive_shape name with hsh | ⟨x', hsh⟩
    · rw [hbd] at hsh
      cases hsh
    · rw [hbd] at hsh
      obtain ⟨-, hxs⟩ := List.cons.inj hsh
      subst hxs
      -- name has drive [x, ':']
      rcases hb2 : (splitDrive name).2 with _ | ⟨c, bp2⟩
      · -- empty path part: ntjoinRel
        have hdst : ntjoin td name = ntjoinRel [a, ':'] ('\\' :: joinBS comps) [x, ':'] [] := by
          unfold ntjoin
          simp only []
          rw [hsdtd, hb2, hbd]
        exact dst_rel_case td name a comps x [] hreltd hna hsdtd hg hdst
      · by_cases hsc : isSep c = true
        · -- rooted second path: result is [x,':'] ++ (c :: bp2)
          have hdst : ntjoin td name = x :: ':' :: c :: bp2 := by
            unfold ntjoin
            simp only []
            rw [hsdtd, hb2, hbd]
            simp only [hsc, if_true]
            rw [if_pos (Or.inl (by simp))]
            rfl
          rw [hdst] at hg ⊢
          have hdp := (drive2_parts x (c :: bp2)).1
          have hro : rootedOf (x :: ':' :: c :: bp2) = true := by
            rw [rooted_drive2, hsc]
          by_cases hsx : isSep (tbc x) = true
          · exact absurd (drive_mismatch_contra td _ a (tbc x) hreltd hna hdp hsx hg) id
          · rw [Bool.not_eq_true] at hsx
            exact ⟨tbc x, hdp, hsx, hro⟩
        · have hdst : ntjoin td name =
              ntjoinRel [a, ':'] ('\\' :: joinBS comps) [x, ':'] (c :: bp2) := by
            unfold ntjoin
            simp only []
            rw [hsdtd, hb2, hbd]
            simp only [hsc, Bool.false_eq_true, if_false]
          exact dst_rel_case td name a comps x (c :: bp2) hreltd hna hsdtd hg hdst
  case nil =>
    rcases hb2 : (splitDrive name).2 with _ | ⟨c, bp2⟩
    · have hdst : ntjoin td name = ntjoinRel [a, ':'] ('\\' :: joinBS comps) [] [] := by
        unfold ntjoin
        simp only []
        rw [hsdtd, hb2, hbd]
      exact dst_rel_case_nodrive td name a comps [] hreltd hna hg hdst
    · by_cases hsc : isSep c = true
      · have hdst : ntjoin td name = a :: ':' :: c :: bp2 := by
          unfold ntjoin
          simp only []
          rw [hsdtd, hb2, hbd]
          simp only [hsc, if_true]
          rw [if_neg (by simp)]
          rfl
        rw [hdst] at hg ⊢
        have hdp := (drive2_parts a (c :: bp2)).1
        rw [tbc_eq_self a hna'] at hdp
        exact ⟨a, hdp, hna, by rw [rooted_drive2, hsc]⟩
      · have hdst : ntjoin td name =
            ntjoinRel [a, ':'] ('\\' :: joinBS comps) [] (c :: bp2) := by
          unfold ntjoin
          simp only []
          rw [hsdtd, hb2, hbd]
          simp only [hsc, Bool.false_eq_true, if_false]
        exact dst_rel_case_nodrive td name a comps (c :: bp2) hreltd hna hg hdst

/-- A path that passes containment is never a bare drive after
normalization. -/
theorem ifid_not_bare_drive (x td : Str) (hg : is_file_into_dir x td = true) :
    ¬ ∃ b, normpath x = [b, ':'] := by
  rintro ⟨b, hb⟩
  obtain ⟨-, -, hlen, -⟩ := ifid_extract x td hg
  have hrc : relComps x = [] := by
    unfold relComps
    rw [hb]
    simp [splitDrive]
    decide
  rw [hrc] at hlen
  simp at hlen

/-- The normalized accepted destination: a well-formed drive-rooted path
with at least one clean component. -/
theorem dst_wf (td name : Str) (a : Char) (comps : List Str)
    (htd : td = a :: ':' :: '\\' :: joinBS comps) (hna : isSep a = false)
    (hcl : ∀ c ∈ comps, CleanComp c)
    (hg : is_file_into_dir (ntjoin td name) td = true) :
    ∃ b dc, normpath (ntjoin td name) = b :: ':' :: '\\' :: joinBS dc ∧ isSep b = false ∧
      dc ≠ [] ∧ ∀ c ∈ dc, CleanComp c := by
  obtain ⟨b, hdp, hb, hro⟩ := dst_drive_rooted td name a comps htd hna hcl hg
  refine ⟨b, npComps (ntjoin td name), ?_, hb, ifid_npComps_ne _ _ hg, ?_⟩
  · unfold normpath
    rw [if_neg (by rintro ⟨h1, -, -⟩; rw [hdp] at h1; cases h1), hdp, hro]
    rfl
  · intro c hc
    refine ⟨(npComps_mem_ne _ c hc).1, (npComps_mem_ne _ c hc).2, ?_, npComps_sepFree _ c hc⟩
    intro he
    have hmm : ['.', '.'] ∈ npComps (ntjoin td name) := he ▸ hc
    unfold npComps at hmm
    rw [hro] at hmm
    exact foldl_normStep_rooted_no_dotdot _ [] (by simp) hmm

/-- Appending operations preserves trace containment when each new
mutation is inside the root. -/
theorem opsInside_append (td : Str) (ops newOps : List FsOp) (h1 : OpsInside td ops)
    (h2 : ∀ op ∈ newOps, ∀ p, writePath op = some p → is_file_into_dir p td = true) :
    OpsInside td (ops ++ newOps) := by
  intro op hop p hp
  rcases List.mem_append.mp hop with h | h
  · exact h1 op h p hp
  · exact h2 op h p hp

/-- Appending non-mutating operations preserves trace containment. -/
theorem opsInside_nonwrite (td : Str) (ops newOps : List FsOp) (h1 : OpsInside td ops)
    (h2 : ∀ op ∈ newOps, writePath op = none) : OpsInside td (ops ++ newOps) :=
  opsInside_append td ops newOps h1
    (fun op hop p hp => by rw [h2 op hop] at hp; cases hp)

/-- Every mutation `shutil.copytree` performs lands inside the root: the
destination directory itself (guarded), and each source subpath carried
over under the destination (clean by the source tree's well-formedness). -/
theorem copytreeOps_inside (td : Str) (fs : FS) (src dst : Str)
    (hWfd : ∀ q ∈ fs.dirs, WfAbs q) (hWff : ∀ e ∈ fs.files, WfAbs e.1)
    (hdst_in : is_file_into_dir dst td = true)
    (hnp_dst : npComps dst ≠ [])
    (hnb : ¬ ∃ b, normpath src = [b, ':']) :
    ∀ op ∈ copytreeOps fs src dst, ∀ p, writePath op = some p →
      is_file_into_dir p td = true := by
  intro op hop p hp
  unfold copytreeOps at hop
  rcases List.mem_cons.mp hop with h0 | hrest
  · subst h0
    have : p = dst := Option.some.inj hp.symm ▸ rfl
    rw [show p = dst from (Option.some.inj hp).symm]
    exact hdst_in
  · rcases List.mem_append.mp hrest with hmid | hw
    · rcases List.mem_append.mp hmid with hdirs | hreads
      · rcases List.mem_filterMap.mp hdirs with ⟨q, hq, heq⟩
        by_cases hpre : ((normpath src ++ ['\\']).isPrefixOf q = true)
        · rw [if_pos hpre] at heq
          obtain ⟨ts, hts, hclts, hqe⟩ :=
            wf_prefix_decomp q (normpath src) (hWfd q hq) hpre hnb
          have hdrop : q.drop (normpath src).length = '\\' :: joinBS ts := by
            rw [hqe]
            exact List.drop_left _ _
          rw [← Option.some.inj heq] at hp
          have hpe : p = dst ++ '\\' :: joinBS ts := by
            have := Option.some.inj hp
            rw [← this, hdrop]
          rw [hpe]
          exact ifid_extend dst td ts hts hclts hdst_in hnp_dst
        · rw [if_neg hpre] at heq
          cases heq
      · rcases List.mem_filterMap.mp hreads with ⟨e, he, heq⟩
        by_cases hpre : ((normpath src ++ ['\\']).isPrefixOf e.1 = true)
        · rw [if_pos hpre] at heq
          rw [← Option.some.inj heq] at hp
          cases hp
        · rw [if_neg hpre] at heq
          cases heq
    · rcases List.mem_filterMap.mp hw with ⟨e, he, heq⟩
      by_cases hpre : ((normpath src ++ ['\\']).isPrefixOf e.1 = true)
      · rw [if_pos hpre] at heq
        obtain ⟨ts, hts, hclts, hqe⟩ :=
          wf_prefix_decomp e.1 (normpath src) (hWff e he) hpre hnb
        have hdrop : e.1.drop (normpath src).length = '\\' :: joinBS ts := by
          rw [hqe]
          exact List.drop_left _ _
        rw [← Option.some.inj heq] at hp
        have hpe : p = dst ++ '\\' :: joinBS ts := by
          have := Option.some.inj hp
          rw [← this, hdrop]
        rw [hpe]
        exact ifid_extend dst td ts hts hclts hdst_in hnp_dst
      · rw [if_neg hpre] at heq
        cases heq

/-- `shutil.copytree` over an unlinked destination keeps the filesystem
well-formed. -/
theorem copytreeFS_wf (fs : FS) (src dst : Str) (hW : WfFS fs)
    (b : Char) (dc : List Str) (hnd : normpath dst = b :: ':' :: '\\' :: joinBS dc)
    (hb : isSep b = false) (hdc : ∀ c ∈ dc, CleanComp c) (hdcne : dc ≠ [])
    (hnb : ¬ ∃ b, normpath src = [b, ':']) :
    WfFS (copytreeFS (unlinkFS fs dst) src dst) := by
  have hkeywf : ∀ (q : Str), WfAbs q → (normpath src ++ ['\\']).isPrefixOf q = true →
      WfAbs (normpath dst ++ q.drop (normpath src).length) := by
    intro q hq hpre
    obtain ⟨ts, hts, hclts, hqe⟩ := wf_prefix_decomp q (normpath src) hq hpre hnb
    have hdrop : q.drop (normpath src).length = '\\' :: joinBS ts := by
      rw [hqe]
      exact List.drop_left _ _
    rw [hdrop, hnd]
    rw [show (b :: ':' :: '\\' :: joinBS dc) ++ '\\' :: joinBS ts =
      b :: ':' :: '\\' :: (joinBS dc ++ '\\' :: joinBS ts) by simp]
    rw [← joinBS_append dc ts hdcne hts]
    exact wfAbs_intro b (dc ++ ts) hb
      (fun c hc => by
        rcases List.mem_append.mp hc with h | h
        · exact hdc c h
        · exact hclts c h)
  constructor
  · intro e he
    unfold copytreeFS unlinkFS at he
    rcases List.mem_append.mp he with h | h
    · exact hW.1 e ((List.mem_filter.mp h).1)
    · rcases List.mem_filterMap.mp h with ⟨e0, he0, heq⟩
      have he0' : e0 ∈ fs.files := (List.mem_filter.mp he0).1
      by_cases hpre : ((normpath src ++ ['\\']).isPrefixOf e0.1 = true)
      · rw [if_pos hpre] at heq
        rw [← Option.some.inj heq]
        exact hkeywf e0.1 (hW.1 e0 he0') hpre
      · rw [if_neg hpre] at heq
        cases heq
  · intro q hq
    unfold copytreeFS unlinkFS at hq
    rcases List.mem_append.mp hq with h | h
    · exact hW.2 q h
    · rcases List.mem_cons.mp h with h0 | h1
      · rw [h0, hnd]
        exact wfAbs_intro b dc hb hdc
      · rcases List.mem_filterMap.mp h1 with ⟨q0, hq0, heq⟩
        by_cases hpre : ((normpath src ++ ['\\']).isPrefixOf q0 = true)
        · rw [if_pos hpre] at heq
          rw [← Option.some.inj heq]
          exact hkeywf q0 (hW.2 q0 hq0) hpre
        · rw [if_neg hpre] at heq
          cases heq

/-- `shutil.copy2` keeps the filesystem well-formed when the destination
normalizes to a well-formed path. -/
theorem copy2FS_wf (fs : FS) (src dst : Str) (hW : WfFS fs)
    (hwd : WfAbs (normpath dst)) : WfFS (copy2FS fs src dst) := by
  unfold copy2FS
  rcases hlk : lookupFile fs src with _ | c
  · exact hW
  · constructor
    · intro e he
      rcases List.mem_cons.mp he with h0 | h1
      · rw [h0]
        exact hwd
      · exact hW.1 e ((List.mem_filter.mp h1).1)
    · exact hW.2

/-- A `Bool` that is not `false` is `true`. -/
theorem bool_ne_false (b : Bool) (h : ¬ b = false) : b = true := by
  cases b
  · exact absurd rfl h
  · rfl

/-- Appending one non-mutating operation preserves trace containment. -/
theorem opsInside_snoc_nw (td : Str) (ops : List FsOp) (op : FsOp)
    (h1 : OpsInside td ops) (h2 : writePath op = none) :
    OpsInside td (ops ++ [op]) :=
  opsInside_nonwrite td ops [op] h1 (by intro o ho; simp at ho; rw [ho]; exact h2)

/-- One loop iteration preserves both invariants: every mutation in the
trace is inside the root, and the filesystem stays well-formed. -/
theorem processEntry_inside (td : Str) (st : St) (name : Str)
    (htd : WfAbs td) (hW : WfFS st.fs) (hO : OpsInside td st.ops) :
    OpsInside td (processEntry td st name).ops ∧ WfFS (processEntry td st name).fs := by
  obtain ⟨a, comps, htde, hna, hclc⟩ := wfAbs_dest td htd
  unfold processEntry
  by_cases herr : st.err.isSome = true
  · rw [if_pos herr]
    exact ⟨hO, hW⟩
  rw [if_neg herr]
  simp only []
  split
  · exact ⟨hO, hW⟩
  next hgd =>
  have hg : is_file_into_dir (ntjoin td name) td = true := bool_ne_false _ hgd
  have hO1 : OpsInside td (st.ops ++ [FsOp.statP (ntjoin td name)]) :=
    opsInside_snoc_nw td _ _ hO rfl
  split
  · exact ⟨hO1, hW⟩
  next hdir =>
  have hO2 : OpsInside td ((st.ops ++ [FsOp.statP (ntjoin td name)]) ++
      [FsOp.readF (ntjoin td (ntjoin td name))]) :=
    opsInside_snoc_nw td _ _ hO1 rfl
  split
  · exact ⟨hO2, hW⟩
  next text hlk =>
  have hO3 : OpsInside td (((st.ops ++ [FsOp.statP (ntjoin td name)]) ++
      [FsOp.readF (ntjoin td (ntjoin td name))]) ++
      [FsOp.statP (normpath (ntjoin (ntdirname (ntjoin td name)) text))]) :=
    opsInside_snoc_nw td _ _ hO2 rfl
  split
  · exact ⟨hO3, hW⟩
  next hex =>
  split
  · exact ⟨hO3, hW⟩
  next hsrcg =>
  have hsrc : is_file_into_dir (normpath (ntjoin (ntdirname (ntjoin td name)) text)) td =
      true := bool_ne_false _ hsrcg
  have hO4 : OpsInside td ((((st.ops ++ [FsOp.statP (ntjoin td name)]) ++
      [FsOp.readF (ntjoin td (ntjoin td name))]) ++
      [FsOp.statP (normpath (ntjoin (ntdirname (ntjoin td name)) text))]) ++
      [FsOp.statP (normpath (ntjoin (ntdirname (ntjoin td name)) text))]) :=
    opsInside_snoc_nw td _ _ hO3 rfl
  obtain ⟨b, dc, hnd, hb, hdcne, hdcl⟩ := dst_wf td name a comps htde hna hclc hg
  have hnb : ¬ ∃ bb,
      normpath (normpath (ntjoin (ntdirname (ntjoin td name)) text)) = [bb, ':'] :=
    ifid_not_bare_drive _ td hsrc
  split
  · exact ⟨hO4, hW⟩
  split
  · next hdirsrc =>
    constructor
    · refine opsInside_append td _ _ hO4 ?_
      intro op hop p hp
      rcases List.mem_cons.mp hop with h0 | h1
      · rw [h0] at hp
        rw [show p = ntjoin td name from (Option.some.inj hp).symm]
        exact hg
      · refine copytreeOps_inside td (unlinkFS st.fs (ntjoin td name)) _ _ ?_ ?_ hg
          (ifid_npComps_ne _ _ hg) hnb op h1 p hp
        · exact hW.2
        · intro e he
          exact hW.1 e (List.mem_filter.mp he).1
    · exact copytreeFS_wf st.fs _ _ hW b dc hnd hb hdcl hdcne hnb
  · constructor
    · refine opsInside_append td _ _ hO4 ?_
      intro op hop p hp
      rcases List.mem_cons.mp hop with h0 | h1
      · rw [h0] at hp
        cases hp
      · have h1e : op = FsOp.writeF (ntjoin td name) := by simpa using h1
        rw [h1e] at hp
        rw [show p = ntjoin td name from (Option.some.inj hp).symm]
        exact hg
    · exact copy2FS_wf st.fs _ _ hW (by rw [hnd]; exact wfAbs_intro b dc hb hdcl)

/-- The whole loop preserves both invariants. -/
theorem foldl_inside (td : Str) (htd : WfAbs td) (names : List Str) :
    ∀ st : St, OpsInside td st.ops → WfFS st.fs →
      OpsInside td (names.foldl (processEntry td) st).ops ∧
        WfFS (names.foldl (processEntry td) st).fs := by
  induction names with
  | nil => intro st h1 h2; exact ⟨h1, h2⟩
  | cons n ns ih =>
    intro st h1 h2
    have h := processEntry_inside td st n htd h2 h1
    exact ih (processEntry td st n) h.1 h.2

/-- Packaging the final state never changes the recorded trace. -/
theorem finishRun_ops (stf : St) : (finishRun stf).ops = stf.ops := by
  unfold finishRun
  split <;> rfl

/-- Witness for C10 at a concrete run (zero failures, one entry). -/
theorem c10_witness :
    (0 : Int) = -1 ∨
      ((0 : Int) ≤ 0 ∧ (0 : Int) ≤ (numEntries topC fsRoundTripFixed : Int)) := by
  have h := c10_return_bounds topC fsRoundTripFixed 0 (by decide)
  exact h

/-- C3 counterexample: the run resolves a placeholder whose content
escapes the root and stat-probes the outside path (`os.path.exists(src)`
runs before the source containment check), so an out-of-root path is read
from; the destination is nevertheless left untouched. -/
theorem c3_counterexample :
    FsOp.statP (str "c:\\outside.txt") ∈ (fix_all_git_symlinked topC fsProbe).ops ∧
    is_file_into_dir (str "c:\\outside.txt") topC = false ∧
    (fix_all_git_symlinked topC fsProbe).fs = fsProbe := by
  decide

/-- C3 (amended): in every run over a well-formed filesystem with a
well-formed absolute root, every mutating operation (file write, unlink,
directory creation) targets a path contained in the root; in particular a
destination outside the root leaves the loop state untouched and a
resolved source outside the root leaves the filesystem untouched.  (The
original claim's "never read from" half fails: the resolved source is
stat-probed for existence before its containment check.) -/
theorem c3_writes_inside_root (topdir : Str) (fs : FS)
    (htd : WfAbs topdir) (hfs : WfFS fs) :
    OpsInside topdir (fix_all_git_symlinked topdir fs).ops ∧
    (∀ st name, is_file_into_dir (ntjoin topdir name) topdir = false →
      processEntry topdir st name = st) ∧
    (∀ st name text, st.err = none →
      lookupFile st.fs (ntjoin topdir (ntjoin topdir name)) = some text →
      is_file_into_dir (normpath (ntjoin (ntdirname (ntjoin topdir name)) text)) topdir =
        false →
      (processEntry topdir st name).fs = st.fs) := by
  refine ⟨?_, ?_, ?_⟩
  · unfold fix_all_git_symlinked
    split
    · intro op hop p hp
      simp at hop
      rw [hop] at hp
      cases hp
    · next stext _ =>
      split
      · intro op hop p hp
        simp at hop
        rw [hop] at hp
        cases hp
      · split
        · intro op hop p hp
          simp at hop
          rcases hop with h | h <;> rw [h] at hp <;> cases hp
        · next mtext _ =>
          split
          · intro op hop p hp
            simp at hop
            rcases hop with h | h <;> rw [h] at hp <;> cases hp
          · rw [finishRun_ops]
            refine (foldl_inside topdir htd (parseManifest mtext) _ ?_ hfs).1
            intro op hop p hp
            simp at hop
            rcases hop with h | h <;> rw [h] at hp <;> cases hp
  · intro st name hgf
    unfold processEntry
    by_cases herr : st.err.isSome = true
    · rw [if_pos herr]
    · rw [if_neg herr]
      simp only []
      rw [if_pos hgf]
  · intro st name text herr hlk hsrcout
    have herr2 : ¬ st.err.isSome = true := by
      rw [herr]
      simp
    unfold processEntry
    rw [if_neg herr2]
    simp only []
    by_cases hgd : is_file_into_dir (ntjoin topdir name) topdir = false
    · rw [if_pos hgd]
    · rw [if_neg hgd]
      by_cases hdir : isDirFS st.fs (ntjoin topdir name) = true
      · rw [if_pos hdir]
      · rw [if_neg hdir]
        split
        · next heq =>
          rw [heq] at hlk
        · next t heq =>
          rw [heq] at hlk
          rw [show t = text from Option.some.inj hlk]
          by_cases hex2 : existsFS st.fs
              (normpath (ntjoin (ntdirname (ntjoin topdir name)) text)) = false
          · rw [if_pos hex2]
          · rw [if_neg hex2, if_pos hsrcout]

/-- Witness for C3 at a concrete root and filesystem. -/
theorem c3_witness :
    WfAbs topC ∧ WfFS fsProbe ∧
      OpsInside topC (fix_all_git_symlinked topC fsProbe).ops :=
  ⟨by decide, by decide, (c3_writes_inside_root topC fsProbe (by decide) (by decide)).1⟩

end Winutils
